import Mathlib

/-!
Verification of the Memory & Retrieval subsystem of the `privateagent` backend.

Shallow embedding conventions:
* Python `str` is modelled as `List Char` (`Str`); `str.lower`/`str.upper`
  are character maps, `str.split()` is `splitWS` (split on whitespace,
  discarding empty pieces, exactly CPython `split` with no argument),
  `sep.join` is `joinWith`.
* Python `dict` (insertion ordered) is an association list; `alSet` updates
  the first matching key in place or appends a fresh key at the end,
  `alErase` is `dict.pop`, mirroring CPython semantics.
* Python `set` iteration order is unspecified (hash dependent); wherever the
  code iterates a set and the iteration order is observable we either prove
  order-insensitive facts (modelling the set as first-occurrence
  deduplication, `pyDedup`) or parametrise over an arbitrary enumeration
  (`queryGrounding`).
* Python floats `1.3 * wc` are modelled exactly: token costs are kept in
  tenths of a token as naturals (`13 * wc` against a budget of `10 * N`);
  scores in the retrieval code are exact rationals.
* Fallible code (KeyError on a missing dict key, ValueError from
  `range(_, _, 0)`) returns `Option`, `none` being the raised exception.
-/

abbrev Str := List Char

/-- Worker for `splitWS`; `acc` is the non-whitespace run currently being read. -/
def splitWSAux : List Char → Str → List Str
  | [], acc => if acc = [] then [] else [acc]
  | c :: cs, acc =>
    if c.isWhitespace then
      (if acc = [] then splitWSAux cs [] else acc :: splitWSAux cs [])
    else splitWSAux cs (acc ++ [c])

/-- Python `s.split()` on a char list: maximal runs of non-whitespace. -/
def splitWS (s : Str) : List Str := splitWSAux s []

/-- Python `sep.join(parts)`. -/
def joinWith (sep : Str) : List Str → Str
  | [] => []
  | [w] => w
  | w :: ws => w ++ sep ++ joinWith sep ws

/-- Python `str.lower()` (ASCII-adequate model). -/
def lowerStr (s : Str) : Str := s.map Char.toLower

/-- Python `str.upper()` (ASCII-adequate model). -/
def upperStr (s : Str) : Str := s.map Char.toUpper

/-- Worker for `pyDedup`: skip elements already seen. -/
def pyDedupAux {α : Type} [DecidableEq α] (seen : List α) : List α → List α
  | [] => []
  | x :: xs => if x ∈ seen then pyDedupAux seen xs else x :: pyDedupAux (seen ++ [x]) xs

/-- The set of elements of a list enumerated in first-occurrence order:
a canonical enumeration of Python `set(xs)`. -/
def pyDedup {α : Type} [DecidableEq α] (l : List α) : List α := pyDedupAux [] l

/-! ### Association lists: insertion-ordered Python dicts -/

/-- `d[k]` as an option (`d.get(k)`). -/
def alGet {β : Type} (k : Str) : List (Str × β) → Option β
  | [] => none
  | (k', v) :: rest => if k' = k then some v else alGet k rest

/-- `d[k] = v`: replace the first matching entry in place, else append. -/
def alSet {β : Type} (k : Str) (v : β) : List (Str × β) → List (Str × β)
  | [] => [(k, v)]
  | (k', v') :: rest => if k' = k then (k', v) :: rest else (k', v') :: alSet k v rest

/-- `d.pop(k)`: drop the first entry with key `k`. -/
def alErase {β : Type} (k : Str) : List (Str × β) → List (Str × β)
  | [] => []
  | (k', v') :: rest => if k' = k then rest else (k', v') :: alErase k rest

/-- The keys of an association list. -/
def alKeys {β : Type} (d : List (Str × β)) : List Str := d.map (fun p => p.1)

/-! ## `app/core/memory.py`: `ConversationMemory` -/

/-- A stored message; the randomly generated `message_id`, the timestamp and
the metadata dict are not referenced by any claim and are omitted. -/
structure Msg where
  role : Str
  content : Str
deriving DecidableEq

/-- `ConversationMemory` state: the trimming bound and the per-session logs
(`_metadata` only mirrors information derivable from `_sessions`). -/
structure Memory where
  maxHistory : Nat
  sessions : List (Str × List Msg)
deriving DecidableEq

/-- `ConversationMemory.__init__`: `max_history or settings.max_conversation_history`,
where the configured default is `20`; a falsy `0` argument falls back to the
default exactly as Python's `or` does. -/
def mkMemory (mh : Option Nat) : Memory :=
  { maxHistory := match mh with
      | none => 20
      | some 0 => 20
      | some (n + 1) => n + 1
    sessions := [] }

/-- The trim step of `add_message`: `xs[-m:]` when `len(xs) > m`.  Python's
`xs[-0:]` is the whole list, hence the inner guard. -/
def trimPy (m : Nat) (xs : List Msg) : List Msg :=
  if m < xs.length then (if m = 0 then xs else xs.drop (xs.length - m)) else xs

/-- `ConversationMemory.add_message` (metadata bookkeeping omitted): auto-create
the session, append, trim to the last `max_history` entries. -/
def addMessage (st : Memory) (sid : Str) (role content : Str) : Memory :=
  let cur := (alGet sid st.sessions).getD []
  { st with sessions := alSet sid (trimPy st.maxHistory (cur ++ [⟨role, content⟩])) st.sessions }

/-- `ConversationMemory.get_history`: unknown sessions give `[]`; a falsy
(`None` or `0`) limit gives the whole log, a positive limit the last
`limit` entries (`messages[-limit:]`). -/
def getHistory (st : Memory) (sid : Str) (limit : Option Nat) : List Msg :=
  match alGet sid st.sessions with
  | none => []
  | some msgs =>
    match limit with
    | none => msgs
    | some l => if 0 < l then msgs.drop (msgs.length - l) else msgs

/-- `f"{msg['role'].upper()}: {msg['content']}"`. -/
def renderMsg (m : Msg) : Str := upperStr m.role ++ (':' :: ' ' :: m.content)

/-- `len(msg_text.split()) * 1.3` in exact tenths of a token. -/
def msgCost13 (m : Msg) : Nat := 13 * (splitWS (renderMsg m)).length

/-- The accumulation loop of `get_context`, fed the reversed history;
`budget10` is `max_tokens` in tenths.  Stops (`break`) at the first message
that would push the running estimate over the budget; admitted messages are
prepended, so the result is in chronological order. -/
def contextLinesRev (budget10 : Nat) : List Msg → Nat → List Str
  | [], _ => []
  | m :: rest, est =>
    if budget10 < est + msgCost13 m then []
    else contextLinesRev budget10 rest (est + msgCost13 m) ++ [renderMsg m]

/-- The lines `get_context` joins: `max_tokens or settings.max_context_tokens`
(default `4096`) resolved exactly as Python's `or` does. -/
def contextLines (st : Memory) (sid : Str) (maxTokens : Option Nat) : List Str :=
  let n : Nat := match maxTokens with
    | none => 4096
    | some 0 => 4096
    | some (k + 1) => k + 1
  contextLinesRev (10 * n) ((getHistory st sid none).reverse) 0

/-- `ConversationMemory.get_context`: `"\n".join(context_parts)`. -/
def getContext (st : Memory) (sid : Str) (maxTokens : Option Nat) : Str :=
  joinWith ['\n'] (contextLines st sid maxTokens)

/-! ## `app/modules/research/engine.py`: `ResearchEngine._chunk_text` -/

/-- Python `range(0, stop, step)` for an integer `step`: `step = 0` raises
`ValueError` (`none`); a negative `step` yields no indices; a positive one
yields `0, step, 2*step, ...` below `stop`. -/
def pyRange0 (stop : Nat) (step : Int) : Option (List Nat) :=
  if step = 0 then none
  else if step < 0 then some []
  else some (List.range' 0 ((stop + (step.toNat - 1)) / step.toNat) step.toNat)

/-- `ResearchEngine._chunk_text`: word windows of `chunk_size` advancing by
`chunk_size - overlap`, empty renderings skipped, whole input as fallback. -/
def chunkText (text : Str) (size overlap : Nat) : Option (List Str) :=
  let words := splitWS text
  match pyRange0 words.length ((size : Int) - (overlap : Int)) with
  | none => none
  | some idxs =>
    let chunks := (idxs.map (fun i => joinWith [' '] ((words.drop i).take size))).filter
      (fun c => c ≠ [])
    some (if chunks = [] then [text] else chunks)

/-! ## `app/modules/research/rag.py`: `RAGStore` -/

/-- A stored chunk record (`{"content": ..., "doc_id": ..., "metadata": ...}`);
the metadata dict is not referenced by any claim and is omitted. -/
structure Chunk where
  content : Str
  docId : Str
deriving DecidableEq

/-- `RAGStore` state: `_chunks` (chunk_id → record) and `_index`
(word → list of chunk_ids), both insertion-ordered dicts. -/
structure RAGStore where
  chunks : List (Str × Chunk)
  index : List (Str × List Str)
deriving DecidableEq

/-- `RAGStore()` — both dicts empty. -/
def emptyStore : RAGStore := ⟨[], []⟩

/-- `RAGStore.chunk_count`. -/
def chunkCount (s : RAGStore) : Nat := s.chunks.length

/-- `RAGStore.add_chunk`, parametrised by the content hash
(`hashlib.md5(content.encode()).hexdigest()[:16]` in the source — a fixed
deterministic function of `content` alone, kept abstract here): store the
record under `hash content`, then register that id under every distinct
lowercase word of the content, skipping postings that already hold it
(`indexWord` is the loop body: `if word not in index: index[word] = []` then
append-if-absent). -/
def indexWord (cid : Str) (idx : List (Str × List Str)) (w : Str) :
    List (Str × List Str) :=
  let cur := (alGet w idx).getD []
  if cid ∈ cur then idx else alSet w (cur ++ [cid]) idx

/-- `RAGStore.add_chunk` (see above); the metadata argument is omitted as no
claim references it. -/
def addChunk (hash : Str → Str) (content docId : Str) (s : RAGStore) : Str × RAGStore :=
  let cid := hash content
  let chunks := alSet cid ⟨content, docId⟩ s.chunks
  let ws := pyDedup (splitWS (lowerStr content))
  (cid, ⟨chunks, ws.foldl (indexWord cid) s.index⟩)

/-- A retrieval score: the exact value of the Python float `hits / n` kept as
the pair `(hits, n)`.  Every score produced by one `search` call has the same
positive denominator, so float comparisons between them coincide with exact
rational comparisons. -/
abbrev Score := Nat × Nat

/-- The rational value of a score pair — the number the Python float stands for. -/
def scoreVal (p : Score) : ℚ := (p.1 : ℚ) / (p.2 : ℚ)

/-- Stable descending insertion by a score key: `x` moves past `y` only when
`y`'s score is strictly greater, so ties keep their original order exactly as
Python's stable `sorted` does.  `a/b < c/d` is compared by cross-multiplication,
which for positive denominators is exactly the float comparison. -/
def insertDescBy {α : Type} (f : α → Score) (x : α) : List α → List α
  | [] => [x]
  | y :: ys =>
    if (f x).1 * (f y).2 < (f y).1 * (f x).2 then y :: insertDescBy f x ys
    else x :: y :: ys

/-- Stable descending sort by a score key: the effect of Python's stable
`sorted(..., key=..., reverse=True)`. -/
def sortDescBy {α : Type} (f : α → Score) : List α → List α
  | [] => []
  | x :: xs => insertDescBy f x (sortDescBy f xs)

/-- The result-building comprehension of `RAGStore.search`:
`self._chunks[chunk_id]` raises `KeyError` on a dangling id (`none`). -/
def resolve (s : RAGStore) : List (Str × Score) → Option (List (Str × Score × Chunk))
  | [] => some []
  | (cid, sc) :: rest =>
    match alGet cid s.chunks, resolve s rest with
    | some ch, some rs => some ((cid, sc, ch) :: rs)
    | _, _ => none

/-- `RAGStore.search`: accumulate per-chunk hit counts through the postings
lists of the query's distinct lowercase words, normalise by the number of
query words (skipped when there are none — then `raw` is empty anyway and an
integer count `h` is the rational `h/1`), stably sort by descending score,
truncate to `top_k`, and attach the stored records. -/
def bumpScore (cs : List (Str × Nat)) (cid : Str) : List (Str × Nat) :=
  alSet cid ((alGet cid cs).getD 0 + 1) cs

/-- The postings pass of `search` for one query word:
`for chunk_id in self._index[word]: chunk_scores[chunk_id] += 1`
(skipped when the word is unindexed). -/
def tallyWord (s : RAGStore) (cs : List (Str × Nat)) (w : Str) : List (Str × Nat) :=
  ((alGet w s.index).getD []).foldl bumpScore cs

def search (q : Str) (topk : Nat) (s : RAGStore) : Option (List (Str × Score × Chunk)) :=
  let qws := pyDedup (splitWS (lowerStr q))
  let raw := qws.foldl (tallyWord s) ([] : List (Str × Nat))
  let scores : List (Str × Score) := if qws.isEmpty then raw.map (fun p => (p.1, (p.2, 1)))
    else raw.map (fun p => (p.1, (p.2, qws.length)))
  resolve s ((sortDescBy (fun p => p.2) scores).take topk)

/-- How many of the given query words have `cid` in their postings list:
the hit count `search` accumulates for `cid`. -/
def hits (s : RAGStore) (qws : List Str) (cid : Str) : Nat :=
  (qws.filter (fun w => cid ∈ (alGet w s.index).getD [])).length

/-- The descending-score order the stable sort establishes, by
cross-multiplication. -/
def descR {α : Type} (f : α → Score) (a b : α) : Prop :=
  (f b).1 * (f a).2 ≤ (f a).1 * (f b).2

/-- One postings-scrub step of `delete_by_doc`:
`if word in self._index and chunk_id in self._index[word]: remove(chunk_id)`
(`list.remove` drops the first occurrence). -/
def scrubWord (cid : Str) (idx : List (Str × List Str)) (w : Str) :
    List (Str × List Str) :=
  match alGet w idx with
  | none => idx
  | some lst => if cid ∈ lst then alSet w (lst.erase cid) idx else idx

/-- One iteration of the deletion loop of `delete_by_doc`: pop the chunk and
scrub its id from the postings of every distinct lowercase word of its
content. -/
def delChunk (st : RAGStore) (cid : Str) : RAGStore :=
  match alGet cid st.chunks with
  | none => st
  | some ch =>
    ⟨alErase cid st.chunks,
      (pyDedup (splitWS (lowerStr ch.content))).foldl (scrubWord cid) st.index⟩

/-- The ids `delete_by_doc` collects for a document. -/
def docIds (docId : Str) (s : RAGStore) : List Str :=
  (s.chunks.filter (fun p => p.2.docId = docId)).map (fun p => p.1)

/-- `RAGStore.delete_by_doc`: collect the ids of the chunks stored under
`doc_id`, pop each from `_chunks` and scrub it from the postings lists of its
content's words; return how many were collected. -/
def deleteByDoc (docId : Str) (s : RAGStore) : Nat × RAGStore :=
  ((docIds docId s).length, (docIds docId s).foldl delChunk s)

/-- Whether `cid` is stored and its content, lowercased, contains word `w`. -/
def chunkHasWord (s : RAGStore) (w cid : Str) : Bool :=
  match alGet cid s.chunks with
  | some ch => decide (w ∈ splitWS (lowerStr ch.content))
  | none => false

/-- The dictionary well-formedness invariant of a `RAGStore`: chunk keys are
unique (they key a Python dict), every postings list is duplicate-free, every
posting points at a stored chunk whose lowercased content contains the word
(no dangling ids), and every stored chunk is indexed under each word of its
lowercased content. -/
def StoreInv (s : RAGStore) : Prop :=
  (alKeys s.chunks).Nodup
  ∧ (∀ p ∈ s.index, p.2.Nodup)
  ∧ (∀ p ∈ s.index, ∀ cid ∈ p.2, chunkHasWord s p.1 cid = true)
  ∧ (∀ p ∈ s.chunks, ∀ w ∈ splitWS (lowerStr p.2.content),
      p.1 ∈ (alGet w s.index).getD [])

instance storeInvDecidable (s : RAGStore) : Decidable (StoreInv s) := by
  unfold StoreInv
  infer_instance

/-- Index evolution under deletion: every surviving postings list is a
sublist of the corresponding original one. -/
def idxShrink (idx idx' : List (Str × List Str)) : Prop :=
  ∀ w lst', alGet w idx' = some lst' → ∃ lst, alGet w idx = some lst ∧ lst'.Sublist lst

/-! ## `app/modules/research/engine.py`: the RAG query path -/

/-- An entry of `ResearchEngine._chunks`. -/
structure EChunk where
  docId : Str
  chunkIndex : Nat
  content : Str
  source : Str
deriving DecidableEq

/-- `ResearchEngine._retrieve_relevant`: score every stored chunk by the
fraction of the question's distinct lowercase words appearing among the
chunk's words, stably sort descending, truncate to `top_k`, keep positive
scores. -/
def retrieveRelevant (question : Str) (topk : Nat) (chunks : List EChunk) : List EChunk :=
  if chunks.isEmpty then []
  else
    let qws := pyDedup (splitWS (lowerStr question))
    let scored : List (Score × EChunk) := chunks.map (fun c =>
      ((if qws.isEmpty then ((0 : Nat), (1 : Nat))
        else ((qws.filter (fun w => w ∈ splitWS (lowerStr c.content))).length,
          qws.length)), c))
    -- `score > 0` for a score `h/n` with positive denominator is `0 < h`
    (((sortDescBy (fun p => p.1) scored).take topk).filter (fun p => 0 < p.1.1)).map
      (fun p => p.2)

/-- `f"[Source: {c['source']}]\n{c['content']}"`. -/
def fmtChunk (c : EChunk) : Str := "[Source: ".data ++ c.source ++ (']' :: '\n' :: c.content)

/-- A function is a valid model of Python's `list(set(xs))` when it returns
the distinct elements of `xs` in some (unspecified) order. -/
def pySetValid (f : List Str → List Str) : Prop :=
  ∀ xs : List Str, (f xs).Perm (pyDedup xs)

/-- One admissible `list(set(...))` enumeration: first-occurrence order reversed. -/
def revSetOrder : List Str → List Str := fun xs => (pyDedup xs).reverse

/-- The grounding part of `ResearchEngine.query`, parametrised by the
`list(set(...))` enumeration: `none` is the no-relevant-chunks sentinel
branch, otherwise the labelled context block joined with blank lines and
`sources = list(set(source of each retrieved chunk))`.  The generation call
itself is external and out of scope. -/
def queryGrounding (setOrder : List Str → List Str) (question : Str) (topk : Nat)
    (chunks : List EChunk) : Option (Str × List Str) :=
  let rel := retrieveRelevant question topk chunks
  if rel.isEmpty then none
  else some (joinWith ['\n', '\n'] (rel.map fmtChunk), setOrder (rel.map (fun c => c.source)))

/-- The chunk list `_chunk_text` produces for a positive stride `step`:
windows of `size` words starting at `0, step, 2*step, ...`, empty renderings
filtered out. -/
def strideChunks (words : List Str) (size step : Nat) : List Str :=
  ((List.range' 0 ((words.length + (step - 1)) / step) step).map
    (fun i => joinWith [' '] ((words.drop i).take size))).filter (fun c => c ≠ [])

/-- Fold a sequence of `add_message` calls for one session over a memory. -/
def runAdds (sid : Str) (calls : List (Str × Str)) (st : Memory) : Memory :=
  calls.foldl (fun s rc => addMessage s sid rc.1 rc.2) st

/-- The last `n` elements of a list. -/
def takeLast {α : Type} (n : Nat) (xs : List α) : List α := xs.drop (xs.length - n)

-- sanity checks of the embedding on concrete inputs
example : splitWS "  hello   world ".data = ["hello".data, "world".data] := by decide
example : chunkText "a b c d e".data 2 1 =
    some ["a b".data, "b c".data, "c d".data, "d e".data, "e".data] := by decide
example : chunkText "a b c".data 1 1 = none := by decide
example : chunkText "a b c".data 1 2 = some ["a b c".data] := by decide
example : pyDedup ["b", "a", "b", "c"] = ["b", "a", "c"] := by decide
example : trimPy 2 [⟨"u".data, "a".data⟩, ⟨"u".data, "b".data⟩, ⟨"u".data, "c".data⟩]
    = [⟨"u".data, "b".data⟩, ⟨"u".data, "c".data⟩] := by decide

-- the spec's own retrieval scenario, with `id` standing in for the hash
example :
    (search "Python programming".data 2
      (addChunk id "JavaScript runs in browsers".data "d2".data
        (addChunk id "Python is a programming language".data "d1".data emptyStore).2).2).map
      (fun rs => rs.map (fun r => (r.2.2.docId, r.2.1)))
    = some [("d1".data, (2, 2))] := by decide

example :
    (deleteByDoc "d1".data
      (addChunk id "JavaScript runs in browsers".data "d2".data
        (addChunk id "Python is a programming language".data "d1".data emptyStore).2).2).1
    = 1 := by decide

example :
    queryGrounding revSetOrder "alpha".data 2
      [⟨"d".data, 0, "alpha".data, "s1".data⟩, ⟨"d".data, 1, "alpha".data, "s2".data⟩]
    = some ("[Source: s1]\nalpha\n\n[Source: s2]\nalpha".data, ["s2".data, "s1".data]) := by
  decide

/-- Total cost of a list of prompt lines under the code's own estimate,
`word_count * 1.3`, in exact tenths of a token. -/
def cost13 (ls : List Str) : Nat := (ls.map (fun l => 13 * (splitWS l).length)).sum

/-- Total cost of a list of prompt lines under the claimed estimate
`ceil(word_count * 1.3)`, in whole tokens. -/
def ceilCost (ls : List Str) : Nat :=
  (ls.map (fun l => (13 * (splitWS l).length + 9) / 10)).sum

/-- A concrete memory: two empty-content user messages in session `s`. -/
def demoMem : Memory :=
  runAdds "s".data [("user".data, "".data), ("user".data, "".data)] (mkMemory none)

/-- Two concrete engine chunks from distinct sources with identical content. -/
def demoEChunks : List EChunk :=
  [⟨"d".data, 0, "alpha".data, "s1".data⟩, ⟨"d".data, 1, "alpha".data, "s2".data⟩]

/-- A concrete store with two documents, built through `add_chunk` with the
identity function standing in for the (injective on these inputs) hash. -/
def demoStore : RAGStore :=
  (addChunk id "beta gamma".data "d2".data
    (addChunk id "alpha beta".data "d1".data emptyStore).2).2

/-! # Supporting lemmas: association lists -/

theorem alGet_alSet_self {β : Type} (k : Str) (v : β) (l : List (Str × β)) :
    alGet k (alSet k v l) = some v := by
  induction l with
  | nil => simp [alGet, alSet]
  | cons p rest ih =>
    obtain ⟨k', v'⟩ := p
    by_cases h : k' = k
    · simp [alGet, alSet, h]
    · simp [alGet, alSet, h, ih]

theorem alGet_alSet_ne {β : Type} (k k' : Str) (v : β) (l : List (Str × β)) (h : k' ≠ k) :
    alGet k (alSet k' v l) = alGet k l := by
  induction l with
  | nil => simp [alGet, alSet, h]
  | cons p rest ih =>
    obtain ⟨k'', v''⟩ := p
    by_cases h2 : k'' = k'
    · subst h2; simp [alGet, alSet, h]
    · by_cases h3 : k'' = k <;> simp [alGet, alSet, h2, h3, ih, Ne.symm h]

/-! # C10: a zero history limit means no limit -/

theorem getHistory_unfoldGetD (st : Memory) (sid : Str) :
    getHistory st sid none = (alGet sid st.sessions).getD [] := by
  unfold getHistory
  cases alGet sid st.sessions <;> rfl

/-- C10: for every session, `get_history(session_id, limit=0)` returns the whole
history, exactly as passing no limit does — `0` is falsy, so the slicing branch
is skipped. -/
theorem c10_zero_limit (st : Memory) (sid : Str) :
    getHistory st sid (some 0) = getHistory st sid none := by
  unfold getHistory
  cases alGet sid st.sessions <;> simp

/-! # C7: `_chunk_text` with `overlap ≥ size` -/

/-- C7 counterexample: with `overlap = size` (stride `0`), `_chunk_text` does
not complete — `range(0, n, 0)` raises `ValueError` — contradicting the claim
that every `overlap ≥ size` call completes and behaves as a stride of `size`. -/
theorem c7_counterexample : chunkText "a b c".data 1 1 = none := by decide

/-- C7 amended: for `overlap ≥ size` the call never loops forever; it raises
`ValueError` when `overlap = size`, and otherwise (negative stride, empty
`range`) falls through to the single whole-input chunk `[text]` — it does not
behave as a no-overlap stride of `size`. -/
theorem c7_overlap_amended (text : Str) (size overlap : Nat) (h : size ≤ overlap) :
    chunkText text size overlap = if size = overlap then none else some [text] := by
  unfold chunkText pyRange0
  by_cases heq : size = overlap
  · subst heq; simp
  · have hlt : (size : Int) - (overlap : Int) < 0 := by
      have : size < overlap := lt_of_le_of_ne h heq
      omega
    have hne : (size : Int) - (overlap : Int) ≠ 0 := by omega
    simp [hne, hlt, heq]

/-- Witness for C7: a concrete `overlap > size` call returning the whole input. -/
theorem c7_overlap_amended_witness :
    (1 : Nat) ≤ 2 ∧ chunkText "a b c".data 1 2 = some ["a b c".data] := by
  refine ⟨by decide, ?_⟩
  rw [c7_overlap_amended "a b c".data 1 2 (by decide)]
  decide

/-! # C1: FIFO trimming of the session log -/

theorem mkMemory_maxHistory_pos (mh : Option Nat) : 0 < (mkMemory mh).maxHistory := by
  match mh with
  | none => decide
  | some 0 => decide
  | some (n + 1) => simp [mkMemory]

theorem takeLast_length_le {α : Type} (n : Nat) (xs : List α) :
    (takeLast n xs).length ≤ n := by
  simp [takeLast]
  omega

/-- One `add_message` step turns the last-`m` window of `A` into the
last-`m` window of `A ++ [x]`. -/
theorem trimPy_takeLast_step (m : Nat) (hm : 0 < m) (A : List Msg) (x : Msg) :
    trimPy m (takeLast m A ++ [x]) = takeLast m (A ++ [x]) := by
  unfold trimPy takeLast
  rcases Nat.lt_or_ge A.length m with hcase | hcase
  · have h1 : A.length - m = 0 := by omega
    have hc1 : ¬ (m < A.length + 1) := by omega
    have hc2 : A.length + 1 - m = 0 := by omega
    simp [h1, hc1, hc2]
  · have hlen : (A.drop (A.length - m)).length = m := by simp; omega
    have h2 : m < (A.drop (A.length - m) ++ [x]).length := by simp [hlen]
    have hmne : ¬ (m = 0) := by omega
    have h4 : (A.drop (A.length - m) ++ [x]).length - m = 1 := by simp [hlen]
    rw [if_pos h2, if_neg hmne, h4]
    rw [List.drop_append_of_le_length (by omega : 1 ≤ (A.drop (A.length - m)).length)]
    rw [List.drop_drop]
    have h5 : (A ++ [x]).length - m = A.length + 1 - m := by simp
    rw [h5, List.drop_append_of_le_length (by omega : A.length + 1 - m ≤ A.length)]
    have h6 : A.length - m + 1 = A.length + 1 - m := by omega
    rw [h6]

theorem addMessage_maxHistory (st : Memory) (sid role content : Str) :
    (addMessage st sid role content).maxHistory = st.maxHistory := rfl

theorem runAdds_maxHistory (sid : Str) (calls : List (Str × Str)) (st : Memory) :
    (runAdds sid calls st).maxHistory = st.maxHistory := by
  induction calls generalizing st with
  | nil => rfl
  | cons rc rest ih => simpa [runAdds] using ih (addMessage st sid rc.1 rc.2)

theorem runAdds_window (sid : Str) (calls : List (Str × Str)) :
    ∀ (st : Memory) (A : List Msg), 0 < st.maxHistory →
      (alGet sid st.sessions).getD [] = takeLast st.maxHistory A →
      (alGet sid (runAdds sid calls st).sessions).getD []
        = takeLast st.maxHistory (A ++ calls.map (fun rc => Msg.mk rc.1 rc.2)) := by
  induction calls with
  | nil => intro st A hpos hwin; simpa [runAdds] using hwin
  | cons rc rest ih =>
    intro st A hpos hwin
    have hstep : runAdds sid (rc :: rest) st
        = runAdds sid rest (addMessage st sid rc.1 rc.2) := rfl
    rw [hstep]
    have hmh : (addMessage st sid rc.1 rc.2).maxHistory = st.maxHistory := rfl
    have hwin' : (alGet sid (addMessage st sid rc.1 rc.2).sessions).getD []
        = takeLast st.maxHistory (A ++ [Msg.mk rc.1 rc.2]) := by
      show (alGet sid (alSet sid _ st.sessions)).getD [] = _
      rw [alGet_alSet_self]
      show trimPy st.maxHistory ((alGet sid st.sessions).getD [] ++ [Msg.mk rc.1 rc.2]) = _
      rw [hwin]
      exact trimPy_takeLast_step st.maxHistory hpos A (Msg.mk rc.1 rc.2)
    have := ih (addMessage st sid rc.1 rc.2) (A ++ [Msg.mk rc.1 rc.2])
      (by rw [hmh]; exact hpos) hwin'
    rw [hmh] at this
    rw [this]
    simp

/-- C1: after any sequence of `add_message` calls on one session of a fresh
`ConversationMemory`, `get_history` is exactly the last `max_history` of the
appended messages in insertion order (strict FIFO eviction, never reordered),
and its length never exceeds `max_history`.  Quantifying over all call lists
covers the state after every intermediate call. -/
theorem c1_fifo_window (mh : Option Nat) (sid : Str) (calls : List (Str × Str)) :
    getHistory (runAdds sid calls (mkMemory mh)) sid none
      = takeLast (mkMemory mh).maxHistory (calls.map (fun rc => Msg.mk rc.1 rc.2))
    ∧ (getHistory (runAdds sid calls (mkMemory mh)) sid none).length
      ≤ (mkMemory mh).maxHistory := by
  have hwin := runAdds_window sid calls (mkMemory mh) []
    (mkMemory_maxHistory_pos mh) (by simp [mkMemory, alGet, takeLast])
  rw [getHistory_unfoldGetD]
  constructor
  · simpa using hwin
  · rw [show ((alGet sid (runAdds sid calls (mkMemory mh)).sessions).getD []) = _ from hwin]
    simpa using takeLast_length_le (mkMemory mh).maxHistory
      (([] : List Msg) ++ calls.map (fun rc => Msg.mk rc.1 rc.2))

/-! # C2: the context window budget -/

/-- C2 counterexample: the code compares un-ceiled `word_count * 1.3` costs, so
with budget `N = 3` both `"USER: "` lines (one word, cost `1.3` each, sum
`2.6 ≤ 3`) are admitted, while the claimed per-line `ceil(word_count * 1.3)`
cost of the returned prompt is `2 + 2 = 4 > 3`. -/
theorem c2_counterexample :
    3 < ceilCost (contextLines demoMem "s".data (some 3)) := by decide

theorem contextLinesRev_cost (B : Nat) :
    ∀ (rev : List Msg) (est : Nat), est ≤ B →
      est + cost13 (contextLinesRev B rev est) ≤ B := by
  intro rev
  induction rev with
  | nil => intro est h; simpa [contextLinesRev, cost13] using h
  | cons m rest ih =>
    intro est h
    by_cases hc : B < est + msgCost13 m
    · simpa [contextLinesRev, hc, cost13] using h
    · push_neg at hc
      have hrec := ih (est + msgCost13 m) hc
      simp only [contextLinesRev, if_neg (by omega : ¬ B < est + msgCost13 m)]
      simp only [cost13, List.map_append, List.sum_append] at hrec ⊢
      simp only [List.map_cons, List.map_nil, List.sum_cons, List.sum_nil]
      have : (13 : Nat) * (splitWS (renderMsg m)).length = msgCost13 m := rfl
      omega

theorem contextLinesRev_admitted (B : Nat) :
    ∀ (rev : List Msg) (est : Nat), ∃ j,
      contextLinesRev B rev est = ((rev.take j).map renderMsg).reverse := by
  intro rev
  induction rev with
  | nil => intro est; exact ⟨0, by simp [contextLinesRev]⟩
  | cons m rest ih =>
    intro est
    by_cases hc : B < est + msgCost13 m
    · exact ⟨0, by simp [contextLinesRev, hc]⟩
    · obtain ⟨j, hj⟩ := ih (est + msgCost13 m)
      refine ⟨j + 1, ?_⟩
      simp [contextLinesRev, hc, hj]

theorem reverse_take_reverse {α : Type} (l : List α) (j : Nat) :
    (l.reverse.take j).reverse = l.drop (l.length - j) := by
  rcases le_or_lt j l.length with hle | hlt
  · have hsplit : l.take (l.length - j) ++ l.drop (l.length - j) = l :=
      List.take_append_drop _ l
    have hrev : l.reverse
        = (l.drop (l.length - j)).reverse ++ (l.take (l.length - j)).reverse := by
      conv_lhs => rw [← hsplit]
      rw [List.reverse_append]
    have hlen : (l.drop (l.length - j)).reverse.length = j := by
      simp; omega
    rw [hrev, List.take_left' hlen, List.reverse_reverse]
  · have h0 : l.length - j = 0 := by omega
    have : l.reverse.take j = l.reverse := by
      apply List.take_of_length_le; simp; omega
    rw [this, List.reverse_reverse, h0, List.drop_zero]

/-- C2 amended: `get_context` admits messages against the code's own un-ceiled
`word_count * 1.3` estimate (kept in exact tenths), so the admitted lines cost
at most `max_tokens`; the admitted lines are exactly a contiguous most-recent
suffix of the rendered history in chronological order (each message admitted
or rejected atomically).  The claim's `ceil` per-line rule is not satisfied
(see the counterexample). -/
theorem c2_context_amended (st : Memory) (sid : Str) (N : Nat) (h : 0 < N) :
    cost13 (contextLines st sid (some N)) ≤ 10 * N
    ∧ ∃ k, contextLines st sid (some N)
        = ((getHistory st sid none).map renderMsg).drop k := by
  obtain ⟨p, rfl⟩ : ∃ p, N = p + 1 := ⟨N - 1, by omega⟩
  constructor
  · have := contextLinesRev_cost (10 * (p + 1)) ((getHistory st sid none).reverse) 0
      (by omega)
    simpa [contextLines] using this
  · obtain ⟨j, hj⟩ := contextLinesRev_admitted (10 * (p + 1))
      ((getHistory st sid none).reverse) 0
    refine ⟨(getHistory st sid none).length - j, ?_⟩
    show contextLinesRev (10 * (p + 1)) ((getHistory st sid none).reverse) 0 = _
    rw [hj, ← List.map_reverse, ← List.map_drop, ← reverse_take_reverse]

/-- Witness for C2 amended at a concrete state and budget. -/
theorem c2_context_amended_witness :
    0 < 3 ∧ (cost13 (contextLines demoMem "s".data (some 3)) ≤ 10 * 3
      ∧ ∃ k, contextLines demoMem "s".data (some 3)
          = ((getHistory demoMem "s".data none).map renderMsg).drop k) :=
  ⟨by decide, c2_context_amended demoMem "s".data 3 (by decide)⟩

/-! # C6: chunking covers every word -/

theorem splitWSAux_mem (cs : List Char) :
    ∀ (acc : Str), (∀ c ∈ acc, ¬ c.isWhitespace) →
      ∀ w ∈ splitWSAux cs acc, w ≠ [] ∧ ∀ c ∈ w, ¬ c.isWhitespace := by
  induction cs with
  | nil =>
    intro acc hacc w hw
    by_cases h : acc = []
    · simp [splitWSAux, h] at hw
    · simp [splitWSAux, h] at hw
      subst hw; exact ⟨h, hacc⟩
  | cons c cs ih =>
    intro acc hacc w hw
    by_cases hws : c.isWhitespace
    · simp only [splitWSAux, if_pos hws] at hw
      by_cases hacc0 : acc = []
      · rw [if_pos hacc0] at hw
        exact ih [] (by simp) w hw
      · rw [if_neg hacc0] at hw
        rcases List.mem_cons.mp hw with rfl | hw'
        · exact ⟨hacc0, hacc⟩
        · exact ih [] (by simp) w hw'
    · simp only [splitWSAux, if_neg hws] at hw
      refine ih (acc ++ [c]) ?_ w hw
      intro d hd
      rcases List.mem_append.mp hd with hd | hd
      · exact hacc d hd
      · simp at hd; subst hd; exact hws

/-- Every word produced by `splitWS` is non-empty and whitespace-free. -/
theorem splitWS_word_props (s : Str) :
    ∀ w ∈ splitWS s, w ≠ [] ∧ ∀ c ∈ w, ¬ c.isWhitespace :=
  splitWSAux_mem s [] (by simp)

theorem splitWSAux_word (w : Str) (hw : ∀ c ∈ w, ¬ c.isWhitespace) :
    ∀ (cs : List Char) (acc : Str), splitWSAux (w ++ cs) acc = splitWSAux cs (acc ++ w) := by
  induction w with
  | nil => intro cs acc; simp
  | cons c w' ih =>
    intro cs acc
    have hc : ¬ c.isWhitespace := hw c (by simp)
    have hw' : ∀ d ∈ w', ¬ d.isWhitespace := fun d hd => hw d (by simp [hd])
    show splitWSAux (c :: (w' ++ cs)) acc = _
    rw [show splitWSAux (c :: (w' ++ cs)) acc = splitWSAux (w' ++ cs) (acc ++ [c]) from by
      simp [splitWSAux, hc]]
    rw [ih hw' cs (acc ++ [c]), List.append_assoc]
    rfl

/-- Joining whitespace-free non-empty words with a single space and splitting
again recovers the words exactly. -/
theorem splitWS_joinWith (ws : List Str)
    (h : ∀ w ∈ ws, w ≠ [] ∧ ∀ c ∈ w, ¬ c.isWhitespace) :
    splitWS (joinWith [' '] ws) = ws := by
  induction ws with
  | nil => simp [splitWS, splitWSAux, joinWith]
  | cons w ws' ih =>
    obtain ⟨hne, hclean⟩ := h w (by simp)
    cases ws' with
    | nil =>
      show splitWS (joinWith [' '] [w]) = [w]
      show splitWSAux w [] = [w]
      rw [show (w : Str) = w ++ ([] : List Char) from by simp] at hclean ⊢
      rw [splitWSAux_word w (by simpa using hclean) [] []]
      simp [splitWSAux, hne]
    | cons w2 ws'' =>
      have hjoin : joinWith [' '] (w :: w2 :: ws'')
          = w ++ (' ' :: joinWith [' '] (w2 :: ws'')) := by
        show w ++ [' '] ++ joinWith [' '] (w2 :: ws'') = _
        simp
      show splitWSAux (joinWith [' '] (w :: w2 :: ws'')) [] = _
      rw [hjoin, splitWSAux_word w hclean _ []]
      have hsp : (' ' : Char).isWhitespace = true := by decide
      simp only [splitWSAux, hsp, if_pos, List.nil_append, if_neg hne]
      rw [show splitWSAux (joinWith [' '] (w2 :: ws'')) [] = splitWS (joinWith [' '] (w2 :: ws'')) from rfl]
      rw [ih (fun x hx => h x (by simp [hx]))]

theorem joinWith_ne_nil (sep w : Str) (ws : List Str) (hw : w ≠ []) :
    joinWith sep (w :: ws) ≠ [] := by
  cases ws with
  | nil => simpa [joinWith] using hw
  | cons w2 ws' =>
    show w ++ sep ++ joinWith sep (w2 :: ws') ≠ []
    simp [hw]

theorem window_ne_nil (words : List Str) (i size : Nat)
    (hclean : ∀ w ∈ words, w ≠ [] ∧ ∀ c ∈ w, ¬ c.isWhitespace)
    (hi : i < words.length) (hs : 0 < size) :
    joinWith [' '] ((words.drop i).take size) ≠ [] := by
  have hlen : 0 < ((words.drop i).take size).length := by
    simp; omega
  obtain ⟨w0, rest, hsl⟩ := List.exists_cons_of_ne_nil
    (List.ne_nil_of_length_pos hlen)
  rw [hsl]
  refine joinWith_ne_nil _ _ _ ?_
  have : w0 ∈ (words.drop i).take size := by rw [hsl]; simp
  exact (hclean w0 (List.mem_of_mem_drop (List.mem_of_mem_take this))).1

theorem chunkText_pos (text : Str) (size overlap : Nat) (h : overlap < size) :
    chunkText text size overlap
      = some (if strideChunks (splitWS text) size (size - overlap) = []
          then [text] else strideChunks (splitWS text) size (size - overlap)) := by
  have hne : ¬ ((size : Int) - (overlap : Int) = 0) := by omega
  have hnlt : ¬ ((size : Int) - (overlap : Int) < 0) := by omega
  have htn : ((size : Int) - (overlap : Int)).toNat = size - overlap := by omega
  simp only [chunkText, pyRange0, if_neg hne, if_neg hnlt, htn, strideChunks]

theorem strideChunks_length (words : List Str) (size step : Nat)
    (hclean : ∀ w ∈ words, w ≠ [] ∧ ∀ c ∈ w, ¬ c.isWhitespace)
    (hstep : 0 < step) (hsize : 0 < size) :
    (strideChunks words size step).length = (words.length + (step - 1)) / step := by
  unfold strideChunks
  rw [List.filter_eq_self.mpr ?_]
  · rw [List.length_map, List.length_range']
  · intro c hc
    obtain ⟨i, hi, rfl⟩ := List.mem_map.mp hc
    obtain ⟨t, ht, hieq⟩ := List.mem_range'.mp hi
    have hmul1 : (t + 1) * step ≤ ((words.length + (step - 1)) / step) * step :=
      Nat.mul_le_mul_right step (by omega)
    have hmul2 : ((words.length + (step - 1)) / step) * step ≤ words.length + (step - 1) :=
      Nat.div_mul_le_self _ _
    have hin : i < words.length := by
      have : (t + 1) * step = step * t + step := by ring
      omega
    simpa using window_ne_nil words i size hclean hin hsize

theorem strideChunks_cover (words : List Str) (size step : Nat)
    (hclean : ∀ w ∈ words, w ≠ [] ∧ ∀ c ∈ w, ¬ c.isWhitespace)
    (hstep : 0 < step) (hss : step ≤ size) :
    ∀ w ∈ words, ∃ c ∈ strideChunks words size step, w ∈ splitWS c := by
  intro w hw
  obtain ⟨j, hj⟩ := List.mem_iff_getElem?.mp hw
  obtain ⟨hjn, -⟩ := List.getElem?_eq_some_iff.mp hj
  have hdm : step * (j / step) + j % step = j := Nat.div_add_mod j step
  have hmlt : j % step < step := Nat.mod_lt j hstep
  have hlt : j / step < (words.length + (step - 1)) / step := by
    have h1 : (j / step + 1) ≤ (words.length + (step - 1)) / step := by
      rw [Nat.le_div_iff_mul_le hstep]
      have hexp : (j / step + 1) * step = step * (j / step) + step := by ring
      omega
    omega
  have hi_mem : step * (j / step) ∈
      List.range' 0 ((words.length + (step - 1)) / step) step :=
    List.mem_range'.mpr ⟨j / step, hlt, by omega⟩
  have hslice : w ∈ (words.drop (step * (j / step))).take size := by
    refine List.mem_iff_getElem?.mpr ⟨j - step * (j / step), ?_⟩
    rw [List.getElem?_take_of_lt (by omega : j - step * (j / step) < size)]
    rw [List.getElem?_drop]
    rw [show step * (j / step) + (j - step * (j / step)) = j from by omega]
    exact hj
  have hcne : joinWith [' '] ((words.drop (step * (j / step))).take size) ≠ [] :=
    window_ne_nil words _ size hclean (by omega) (by omega)
  refine ⟨joinWith [' '] ((words.drop (step * (j / step))).take size), ?_, ?_⟩
  · exact List.mem_filter.mpr ⟨List.mem_map_of_mem _ hi_mem, by simpa using hcne⟩
  · rw [splitWS_joinWith _
      (fun w' hw' => hclean w' (List.mem_of_mem_drop (List.mem_of_mem_take hw')))]
    exact hslice

/-- C6: for `overlap < size` the chunker succeeds, returns a non-empty chunk
list (whole input as fallback), every word of the input appears in some chunk,
and a 1000-word input at `size=500, overlap=50` yields more than one chunk. -/
theorem c6_chunk_coverage (text : Str) (size overlap : Nat) (h : overlap < size) :
    ∃ cs, chunkText text size overlap = some cs ∧ cs ≠ []
      ∧ (∀ w ∈ splitWS text, ∃ c ∈ cs, w ∈ splitWS c)
      ∧ ((splitWS text).length = 1000 → size = 500 → overlap = 50 → 1 < cs.length) := by
  refine ⟨_, chunkText_pos text size overlap h, ?_, ?_, ?_⟩
  · by_cases hc : strideChunks (splitWS text) size (size - overlap) = [] <;> simp [hc]
  · intro w hw
    by_cases hc : strideChunks (splitWS text) size (size - overlap) = []
    · exact ⟨text, by simp [hc], hw⟩
    · rw [if_neg hc]
      exact strideChunks_cover (splitWS text) size (size - overlap)
        (splitWS_word_props text) (by omega) (by omega) w hw
  · intro h1000 h500 h50
    subst h500; subst h50
    have hlen3 := strideChunks_length (splitWS text) 500 (500 - 50)
      (splitWS_word_props text) (by omega) (by omega)
    rw [h1000] at hlen3
    rw [show (1000 + (500 - 50 - 1)) / (500 - 50) = 3 from by decide] at hlen3
    have hne : strideChunks (splitWS text) 500 (500 - 50) ≠ [] := by
      intro hnil
      rw [hnil] at hlen3
      simp at hlen3
    rw [if_neg hne]
    omega

/-- Witness for C6 at a concrete three-word input with `size=2, overlap=1`. -/
theorem c6_chunk_coverage_witness :
    (1 : Nat) < 2
    ∧ (∃ cs, chunkText "a b c".data 2 1 = some cs ∧ cs ≠ []
      ∧ (∀ w ∈ splitWS "a b c".data, ∃ c ∈ cs, w ∈ splitWS c)
      ∧ ((splitWS "a b c".data).length = 1000 → 2 = 500 → 1 = 50 → 1 < cs.length)) :=
  ⟨by decide, c6_chunk_coverage "a b c".data 2 1 (by decide)⟩

/-! # Supporting lemmas: dictionaries and set enumeration -/

theorem alGet_mem {β : Type} {k : Str} {v : β} {l : List (Str × β)}
    (h : alGet k l = some v) : (k, v) ∈ l := by
  induction l with
  | nil => simp [alGet] at h
  | cons p rest ih =>
    obtain ⟨k', v'⟩ := p
    by_cases hk : k' = k
    · subst hk
      simp [alGet] at h
      simp [h]
    · simp [alGet, hk] at h
      simp [ih h]

theorem alKeys_cons {β : Type} (q : Str × β) (rest : List (Str × β)) :
    alKeys (q :: rest) = q.1 :: alKeys rest := rfl

theorem mem_alKeys_of_mem {β : Type} {p : Str × β} {l : List (Str × β)}
    (h : p ∈ l) : p.1 ∈ alKeys l := List.mem_map_of_mem (fun q => q.1) h

theorem alGet_eq_none_iff {β : Type} {k : Str} {l : List (Str × β)} :
    alGet k l = none ↔ k ∉ alKeys l := by
  induction l with
  | nil => simp [alGet, alKeys]
  | cons q rest ih =>
    obtain ⟨k', v'⟩ := q
    rw [alKeys_cons, List.mem_cons]
    by_cases hk : k' = k
    · subst hk
      simp [alGet]
    · rw [show alGet k ((k', v') :: rest) = alGet k rest from by simp [alGet, hk], ih]
      constructor
      · intro h hor
        rcases hor with h1 | h2
        · exact hk h1.symm
        · exact h h2
      · intro h h2
        exact h (Or.inr h2)

theorem alGet_of_mem_nodup {β : Type} {k : Str} {v : β} {l : List (Str × β)}
    (hnd : (alKeys l).Nodup) (h : (k, v) ∈ l) : alGet k l = some v := by
  induction l with
  | nil => simp at h
  | cons q rest ih =>
    obtain ⟨k', v'⟩ := q
    rw [alKeys_cons] at hnd
    have hnd1 : k' ∉ alKeys rest := (List.nodup_cons.mp hnd).1
    have hnd2 : (alKeys rest).Nodup := (List.nodup_cons.mp hnd).2
    rcases List.mem_cons.mp h with heq | hmem
    · obtain ⟨h1, h2⟩ := Prod.mk.inj heq
      subst h1; subst h2
      simp [alGet]
    · have hk : k' ≠ k := by
        intro hkk; subst hkk
        exact hnd1 (mem_alKeys_of_mem hmem)
      simp [alGet, hk, ih hnd2 hmem]

theorem mem_alSet {β : Type} {p : Str × β} (k : Str) (v : β) (l : List (Str × β))
    (h : p ∈ alSet k v l) : p ∈ l ∨ p = (k, v) := by
  induction l with
  | nil => simp [alSet] at h; right; exact h
  | cons q rest ih =>
    obtain ⟨k', v'⟩ := q
    by_cases hk : k' = k
    · subst hk
      simp [alSet] at h
      rcases h with h | h
      · right; simp [h]
      · left; simp [h]
    · simp [alSet, hk] at h
      rcases h with h | h
      · left; simp [h]
      · rcases ih h with h' | h'
        · left; simp [h']
        · right; exact h'

theorem alKeys_alSet_mem {β : Type} (k : Str) (v : β) (l : List (Str × β))
    (h : k ∈ alKeys l) : alKeys (alSet k v l) = alKeys l := by
  induction l with
  | nil => simp [alKeys] at h
  | cons q rest ih =>
    obtain ⟨k', v'⟩ := q
    by_cases hk : k' = k
    · simp only [alSet, if_pos hk, alKeys_cons]
    · rw [alKeys_cons, List.mem_cons] at h
      rcases h with h | h
      · exact absurd h.symm hk
      · simp only [alSet, if_neg hk, alKeys_cons, ih h]

theorem alKeys_alSet_not_mem {β : Type} (k : Str) (v : β) (l : List (Str × β))
    (h : k ∉ alKeys l) : alKeys (alSet k v l) = alKeys l ++ [k] := by
  induction l with
  | nil => simp [alSet, alKeys]
  | cons q rest ih =>
    obtain ⟨k', v'⟩ := q
    rw [alKeys_cons, List.mem_cons] at h
    have hk : k' ≠ k := fun hh => h (Or.inl hh.symm)
    have h2 : k ∉ alKeys rest := fun hh => h (Or.inr hh)
    simp only [alSet, if_neg hk, alKeys_cons, ih h2, List.cons_append]

theorem alKeys_alSet_nodup {β : Type} (k : Str) (v : β) (l : List (Str × β))
    (h : (alKeys l).Nodup) : (alKeys (alSet k v l)).Nodup := by
  by_cases hm : k ∈ alKeys l
  · rw [alKeys_alSet_mem k v l hm]; exact h
  · rw [alKeys_alSet_not_mem k v l hm]
    simpa [List.nodup_append] using ⟨h, fun hh => hm hh⟩

theorem length_alSet_mem {β : Type} (k : Str) (v : β) (l : List (Str × β))
    (h : k ∈ alKeys l) : (alSet k v l).length = l.length := by
  induction l with
  | nil => simp [alKeys] at h
  | cons q rest ih =>
    obtain ⟨k', v'⟩ := q
    by_cases hk : k' = k
    · subst hk; simp [alSet]
    · rw [alKeys_cons, List.mem_cons] at h
      rcases h with h | h
      · exact absurd h.symm hk
      · simp [alSet, hk, ih h]

theorem alErase_sublist {β : Type} (k : Str) (l : List (Str × β)) :
    (alErase k l).Sublist l := by
  induction l with
  | nil => simp [alErase]
  | cons q rest ih =>
    obtain ⟨k', v'⟩ := q
    by_cases hk : k' = k
    · simp [alErase, hk]
    · simp only [alErase, if_neg hk]
      exact ih.cons₂ _

theorem alKeys_alErase_sublist {β : Type} (k : Str) (l : List (Str × β)) :
    (alKeys (alErase k l)).Sublist (alKeys l) :=
  show (List.map (fun p => p.1) (alErase k l)).Sublist (List.map (fun p => p.1) l) from
    List.Sublist.map (fun p => p.1) (alErase_sublist k l)

theorem alGet_alErase_ne {β : Type} {k k' : Str} (l : List (Str × β)) (h : k ≠ k') :
    alGet k (alErase k' l) = alGet k l := by
  induction l with
  | nil => simp [alErase]
  | cons q rest ih =>
    obtain ⟨k'', v''⟩ := q
    by_cases hk : k'' = k'
    · subst hk
      have hne : k'' ≠ k := fun hh => h hh.symm
      simp [alErase, alGet, hne]
    · by_cases hk2 : k'' = k <;> simp [alErase, alGet, hk, hk2, ih, h]

theorem alGet_alErase_self {β : Type} {k : Str} {l : List (Str × β)}
    (hnd : (alKeys l).Nodup) : alGet k (alErase k l) = none := by
  induction l with
  | nil => simp [alErase, alGet]
  | cons q rest ih =>
    obtain ⟨k', v'⟩ := q
    rw [alKeys_cons] at hnd
    have hnd1 : k' ∉ alKeys rest := (List.nodup_cons.mp hnd).1
    have hnd2 : (alKeys rest).Nodup := (List.nodup_cons.mp hnd).2
    by_cases hk : k' = k
    · subst hk
      simp only [alErase, if_pos rfl]
      rw [alGet_eq_none_iff]
      exact hnd1
    · simp [alErase, alGet, hk, ih hnd2]

theorem alGet_alErase_none {β : Type} {k k' : Str} {l : List (Str × β)}
    (h : alGet k l = none) : alGet k (alErase k' l) = none := by
  rw [alGet_eq_none_iff] at h ⊢
  intro hmem
  exact h ((alKeys_alErase_sublist k' l).mem hmem)

theorem mem_pyDedupAux {α : Type} [DecidableEq α] (x : α) :
    ∀ (l seen : List α), x ∈ pyDedupAux seen l ↔ x ∈ l ∧ x ∉ seen := by
  intro l
  induction l with
  | nil => intro seen; simp [pyDedupAux]
  | cons y ys ih =>
    intro seen
    by_cases hy : y ∈ seen
    · rw [show pyDedupAux seen (y :: ys) = pyDedupAux seen ys from by
        simp [pyDedupAux, hy]]
      rw [ih seen]
      constructor
      · exact fun ⟨h1, h2⟩ => ⟨by simp [h1], h2⟩
      · rintro ⟨h1, h2⟩
        rcases List.mem_cons.mp h1 with rfl | h1'
        · exact absurd hy h2
        · exact ⟨h1', h2⟩
    · rw [show pyDedupAux seen (y :: ys) = y :: pyDedupAux (seen ++ [y]) ys from by
        simp [pyDedupAux, hy]]
      by_cases hxy : x = y
      · subst hxy; simp [hy]
      · simp only [List.mem_cons, hxy, false_or]
        rw [ih (seen ++ [y])]
        simp [hxy]

theorem mem_pyDedup {α : Type} [DecidableEq α] (x : α) (l : List α) :
    x ∈ pyDedup l ↔ x ∈ l := by
  unfold pyDedup
  rw [mem_pyDedupAux]
  simp

theorem pyDedupAux_nodup {α : Type} [DecidableEq α] :
    ∀ (l seen : List α), (pyDedupAux seen l).Nodup := by
  intro l
  induction l with
  | nil => intro seen; simp [pyDedupAux]
  | cons y ys ih =>
    intro seen
    by_cases hy : y ∈ seen
    · simpa [pyDedupAux, hy] using ih seen
    · rw [show pyDedupAux seen (y :: ys) = y :: pyDedupAux (seen ++ [y]) ys from by
        simp [pyDedupAux, hy]]
      refine List.nodup_cons.mpr ⟨?_, ih (seen ++ [y])⟩
      intro hmem
      exact absurd ((mem_pyDedupAux y ys (seen ++ [y])).mp hmem).2 (by simp)

theorem pyDedup_nodup {α : Type} [DecidableEq α] (l : List α) : (pyDedup l).Nodup :=
  pyDedupAux_nodup l []

/-! # Supporting lemmas: deletion -/

theorem delChunk_chunks_alGet (st : RAGStore) (cid cid' : Str)
    (hnd : (alKeys st.chunks).Nodup) :
    alGet cid' (delChunk st cid).chunks
      = if cid' = cid then none else alGet cid' st.chunks := by
  unfold delChunk
  cases halg : alGet cid st.chunks with
  | none =>
    by_cases h : cid' = cid
    · subst h; simp [halg]
    · simp [h]
  | some ch =>
    by_cases h : cid' = cid
    · subst h; simp [alGet_alErase_self hnd]
    · simp [h, alGet_alErase_ne _ h]

theorem delChunk_keys_nodup (st : RAGStore) (cid : Str)
    (hnd : (alKeys st.chunks).Nodup) : (alKeys (delChunk st cid).chunks).Nodup := by
  unfold delChunk
  cases halg : alGet cid st.chunks with
  | none => exact hnd
  | some ch => exact hnd.sublist (alKeys_alErase_sublist cid st.chunks)

theorem foldDel_keys_nodup :
    ∀ (ids : List Str) (st : RAGStore), (alKeys st.chunks).Nodup →
      (alKeys (ids.foldl delChunk st).chunks).Nodup := by
  intro ids
  induction ids with
  | nil => intro st h; exact h
  | cons id0 rest ih =>
    intro st h
    rw [List.foldl_cons]
    exact ih _ (delChunk_keys_nodup st id0 h)

theorem foldDel_chunks_alGet :
    ∀ (ids : List Str) (st : RAGStore) (cid : Str), (alKeys st.chunks).Nodup →
      alGet cid (ids.foldl delChunk st).chunks
        = if cid ∈ ids then none else alGet cid st.chunks := by
  intro ids
  induction ids with
  | nil => intro st cid h; simp
  | cons id0 rest ih =>
    intro st cid h
    rw [List.foldl_cons, ih _ _ (delChunk_keys_nodup st id0 h),
      delChunk_chunks_alGet st id0 cid h]
    by_cases h1 : cid ∈ rest
    · simp [h1]
    · by_cases h2 : cid = id0 <;> simp [h1, h2]

theorem foldDel_chunks_other :
    ∀ (ids : List Str) (st : RAGStore) (cid : Str), cid ∉ ids →
      alGet cid (ids.foldl delChunk st).chunks = alGet cid st.chunks := by
  intro ids
  induction ids with
  | nil => intro st cid h; simp
  | cons id0 rest ih =>
    intro st cid h
    rw [List.foldl_cons, ih _ _ (fun hh => h (by simp [hh]))]
    unfold delChunk
    cases halg : alGet id0 st.chunks with
    | none => rfl
    | some ch =>
      show alGet cid (alErase id0 st.chunks) = _
      exact alGet_alErase_ne _ (fun hh => h (by simp [hh]))

theorem idxShrink_refl (idx : List (Str × List Str)) : idxShrink idx idx :=
  fun _ lst' h => ⟨lst', h, List.Sublist.refl _⟩

theorem idxShrink_trans {a b c : List (Str × List Str)}
    (h1 : idxShrink a b) (h2 : idxShrink b c) : idxShrink a c := by
  intro w lst' h
  obtain ⟨l2, hb, s2⟩ := h2 w lst' h
  obtain ⟨l1, ha, s1⟩ := h1 w l2 hb
  exact ⟨l1, ha, s2.trans s1⟩

theorem scrubWord_alGet_ne (cid : Str) (idx : List (Str × List Str)) (w0 w : Str)
    (h : w ≠ w0) : alGet w (scrubWord cid idx w0) = alGet w idx := by
  unfold scrubWord
  cases halg : alGet w0 idx with
  | none => rfl
  | some lst =>
    by_cases hc : cid ∈ lst
    · simp only [if_pos hc]
      exact alGet_alSet_ne _ _ _ _ (fun hh => h hh.symm)
    · simp [hc]

theorem scrubWord_shrink (cid : Str) (idx : List (Str × List Str)) (w0 : Str) :
    idxShrink idx (scrubWord cid idx w0) := by
  intro w lst' hget
  by_cases hw : w = w0
  · subst hw
    cases halg : alGet w idx with
    | none =>
      have hsw : scrubWord cid idx w = idx := by unfold scrubWord; rw [halg]
      rw [hsw, halg] at hget
      simp at hget
    | some lst0 =>
      have hsw : scrubWord cid idx w
          = if cid ∈ lst0 then alSet w (lst0.erase cid) idx else idx := by
        unfold scrubWord; rw [halg]
      rw [hsw] at hget
      by_cases hc : cid ∈ lst0
      · rw [if_pos hc, alGet_alSet_self] at hget
        obtain rfl : lst0.erase cid = lst' := by injection hget
        exact ⟨lst0, rfl, List.erase_sublist _ _⟩
      · rw [if_neg hc] at hget
        have heq : lst0 = lst' := by rw [halg] at hget; injection hget
        subst heq
        exact ⟨lst0, rfl, List.Sublist.refl _⟩
  · rw [scrubWord_alGet_ne cid idx w0 w hw] at hget
    exact ⟨lst', hget, List.Sublist.refl _⟩

theorem foldScrub_shrink (cid : Str) :
    ∀ (W : List Str) (idx : List (Str × List Str)),
      idxShrink idx (W.foldl (scrubWord cid) idx) := by
  intro W
  induction W with
  | nil => intro idx; exact idxShrink_refl idx
  | cons w0 W' ih =>
    intro idx
    rw [List.foldl_cons]
    exact idxShrink_trans (scrubWord_shrink cid idx w0) (ih _)

theorem delChunk_index_shrink (st : RAGStore) (cid : Str) :
    idxShrink st.index (delChunk st cid).index := by
  unfold delChunk
  cases halg : alGet cid st.chunks with
  | none => exact idxShrink_refl _
  | some ch => exact foldScrub_shrink cid _ st.index

theorem foldDel_index_shrink :
    ∀ (ids : List Str) (st : RAGStore),
      idxShrink st.index ((ids.foldl delChunk st)).index := by
  intro ids
  induction ids with
  | nil => intro st; exact idxShrink_refl _
  | cons id0 rest ih =>
    intro st
    rw [List.foldl_cons]
    exact idxShrink_trans (delChunk_index_shrink st id0) (ih _)

theorem nodupAll_of_shrink {a b : List (Str × List Str)} (hs : idxShrink a b)
    (h : ∀ w lst, alGet w a = some lst → lst.Nodup) :
    ∀ w lst, alGet w b = some lst → lst.Nodup := by
  intro w lst hget
  obtain ⟨lst0, hget0, hsub⟩ := hs w lst hget
  exact (h w lst0 hget0).sublist hsub

theorem foldScrub_clears (cid : Str) :
    ∀ (W : List Str) (idx : List (Str × List Str)), W.Nodup →
      (∀ w lst, alGet w idx = some lst → lst.Nodup) →
      (∀ w lst, alGet w idx = some lst → cid ∈ lst → w ∈ W) →
      ∀ w lst, alGet w (W.foldl (scrubWord cid) idx) = some lst → cid ∉ lst := by
  intro W
  induction W with
  | nil =>
    intro idx _ _ honly w lst hget hc
    simpa using honly w lst hget hc
  | cons w0 W' ih =>
    intro idx hnW hnAll honly w lst hget
    rw [List.foldl_cons] at hget
    refine ih (scrubWord cid idx w0) (List.nodup_cons.mp hnW).2
      (nodupAll_of_shrink (scrubWord_shrink cid idx w0) hnAll) ?_ w lst hget
    intro w' lst' hget' hc
    by_cases hw : w' = w0
    · subst hw
      exfalso
      cases halg : alGet w' idx with
      | none =>
        have hsw : scrubWord cid idx w' = idx := by unfold scrubWord; rw [halg]
        rw [hsw, halg] at hget'
        simp at hget'
      | some lst0 =>
        have hsw : scrubWord cid idx w'
            = if cid ∈ lst0 then alSet w' (lst0.erase cid) idx else idx := by
          unfold scrubWord; rw [halg]
        rw [hsw] at hget'
        by_cases hc0 : cid ∈ lst0
        · rw [if_pos hc0, alGet_alSet_self] at hget'
          obtain rfl : lst0.erase cid = lst' := by injection hget'
          exact absurd hc
            (fun hcc => by
              have := ((hnAll w' lst0 halg).mem_erase_iff).mp hcc
              exact this.1 rfl)
        · rw [if_neg hc0] at hget'
          rw [halg] at hget'
          obtain rfl : lst0 = lst' := by injection hget'
          exact hc0 hc
    · rw [scrubWord_alGet_ne cid idx w0 w' hw] at hget'
      have := honly w' lst' hget' hc
      rcases List.mem_cons.mp this with h1 | h1
      · exact absurd h1 hw
      · exact h1

theorem foldDel_clears :
    ∀ (ids : List Str) (st : RAGStore), ids.Nodup →
      (∀ w lst, alGet w st.index = some lst → lst.Nodup) →
      (∀ cid ∈ ids, ∃ ch, alGet cid st.chunks = some ch ∧
        (∀ w lst, alGet w st.index = some lst → cid ∈ lst →
          w ∈ splitWS (lowerStr ch.content))) →
      ∀ cid ∈ ids, ∀ w lst,
        alGet w (ids.foldl delChunk st).index = some lst → cid ∉ lst := by
  intro ids
  induction ids with
  | nil => intro st _ _ _ cid hcid; simp at hcid
  | cons id0 rest ih =>
    intro st hnl hnAll hconds cid hcid w lst hget
    obtain ⟨ch0, hch0, honly0⟩ := hconds id0 (by simp)
    have hstep : delChunk st id0
        = ⟨alErase id0 st.chunks,
            (pyDedup (splitWS (lowerStr ch0.content))).foldl (scrubWord id0) st.index⟩ := by
      unfold delChunk; rw [hch0]
    rw [List.foldl_cons] at hget
    rcases List.mem_cons.mp hcid with rfl | hcid'
    · have hclears0 : ∀ w' lst', alGet w' (delChunk st cid).index = some lst' →
          cid ∉ lst' := by
        rw [hstep]
        exact foldScrub_clears cid (pyDedup (splitWS (lowerStr ch0.content))) st.index
          (pyDedup_nodup _) hnAll
          (fun w' lst' h hc => (mem_pyDedup _ _).mpr (honly0 w' lst' h hc))
      obtain ⟨lst1, hget1, hsub⟩ := foldDel_index_shrink rest (delChunk st cid) w lst hget
      exact fun hc => hclears0 w lst1 hget1 (hsub.subset hc)
    · refine ih (delChunk st id0) (List.nodup_cons.mp hnl).2
        (nodupAll_of_shrink (delChunk_index_shrink st id0) hnAll) ?_ cid hcid' w lst hget
      intro cid' hcid''
      obtain ⟨ch, hch, honly⟩ := hconds cid' (by simp [hcid''])
      have hne : cid' ≠ id0 := fun heq => (List.nodup_cons.mp hnl).1 (heq ▸ hcid'')
      refine ⟨ch, ?_, ?_⟩
      · rw [hstep]
        show alGet cid' (alErase id0 st.chunks) = some ch
        rw [alGet_alErase_ne _ hne]
        exact hch
      · intro w' lst' hget' hc
        obtain ⟨lst0, hget0, hsub⟩ := delChunk_index_shrink st id0 w' lst' hget'
        exact honly w' lst0 hget0 (hsub.subset hc)

/-! # C3: deletion removes a document and leaves no dangling postings -/

theorem chunkHasWord_iff {s : RAGStore} {w cid : Str} :
    chunkHasWord s w cid = true
      ↔ ∃ ch, alGet cid s.chunks = some ch ∧ w ∈ splitWS (lowerStr ch.content) := by
  unfold chunkHasWord
  cases halg : alGet cid s.chunks <;> simp

theorem resolve_some (s : RAGStore) :
    ∀ (l : List (Str × Score)) (res : List (Str × Score × Chunk)),
      resolve s l = some res →
        res.map (fun r => (r.1, r.2.1)) = l
        ∧ ∀ r ∈ res, alGet r.1 s.chunks = some r.2.2 := by
  intro l
  induction l with
  | nil =>
    intro res h
    simp [resolve] at h
    subst h
    simp
  | cons p rest ih =>
    intro res h
    obtain ⟨cid, sc⟩ := p
    cases halg : alGet cid s.chunks with
    | none => simp [resolve, halg] at h
    | some ch =>
      cases hres : resolve s rest with
      | none => simp [resolve, halg, hres] at h
      | some rs =>
        simp only [resolve, halg, hres] at h
        obtain rfl : (cid, sc, ch) :: rs = res := by injection h
        obtain ⟨ihmap, ihmem⟩ := ih rs hres
        constructor
        · simp [ihmap]
        · intro r hr
          rcases List.mem_cons.mp hr with rfl | hr'
          · exact halg
          · exact ihmem r hr'

theorem resolve_total (s : RAGStore) :
    ∀ (l : List (Str × Score)),
      (∀ p ∈ l, ∃ ch, alGet p.1 s.chunks = some ch) →
      ∃ res, resolve s l = some res := by
  intro l
  induction l with
  | nil => intro _; exact ⟨[], rfl⟩
  | cons p rest ih =>
    intro h
    obtain ⟨cid, sc⟩ := p
    obtain ⟨ch, hch⟩ := h (cid, sc) (by simp)
    obtain ⟨rs, hrs⟩ := ih (fun q hq => h q (by simp [hq]))
    exact ⟨(cid, sc, ch) :: rs, by simp [resolve, hch, hrs]⟩

theorem search_results_stored (s : RAGStore) (q : Str) (k : Nat)
    (res : List (Str × Score × Chunk)) (h : search q k s = some res) :
    ∀ r ∈ res, alGet r.1 s.chunks = some r.2.2 := by
  unfold search at h
  exact (resolve_some s _ res h).2

theorem mem_docIds_iff {s : RAGStore} {d cid : Str} (hnd : (alKeys s.chunks).Nodup) :
    cid ∈ docIds d s ↔ ∃ ch, alGet cid s.chunks = some ch ∧ ch.docId = d := by
  constructor
  · intro hm
    obtain ⟨p, hp, hp1⟩ := List.mem_map.mp hm
    have hf := List.mem_filter.mp hp
    have hdoc : p.2.docId = d := of_decide_eq_true hf.2
    refine ⟨p.2, ?_, hdoc⟩
    rw [← hp1]
    exact alGet_of_mem_nodup hnd hf.1
  · rintro ⟨ch, hch, hdoc⟩
    exact List.mem_map.mpr
      ⟨(cid, ch), List.mem_filter.mpr ⟨alGet_mem hch, by simp [hdoc]⟩, rfl⟩

theorem docIds_nodup {s : RAGStore} {d : Str} (hnd : (alKeys s.chunks).Nodup) :
    (docIds d s).Nodup := by
  refine hnd.sublist ?_
  unfold docIds alKeys
  exact List.Sublist.map (fun p => p.1) (List.filter_sublist s.chunks)

/-- C3: `delete_by_doc` removes exactly the chunks stored under the given
`doc_id` and returns their number; afterwards no postings list contains a
removed id, and `search` over any query never returns a chunk of that
document.  The hypothesis is the store's dictionary invariant. -/
theorem c3_delete_by_doc (s : RAGStore) (d : Str) (hInv : StoreInv s) :
    (deleteByDoc d s).1 = (s.chunks.filter (fun p => p.2.docId = d)).length
    ∧ (∀ cid, alGet cid (deleteByDoc d s).2.chunks
        = match alGet cid s.chunks with
          | some ch => if ch.docId = d then none else some ch
          | none => none)
    ∧ (∀ cid ∈ docIds d s, ∀ w lst,
        alGet w (deleteByDoc d s).2.index = some lst → cid ∉ lst)
    ∧ (∀ q k res, search q k (deleteByDoc d s).2 = some res →
        ∀ r ∈ res, r.2.2.docId ≠ d) := by
  obtain ⟨hnd, hnAllE, hpostE, hcompl⟩ := hInv
  have hnAll : ∀ w lst, alGet w s.index = some lst → lst.Nodup :=
    fun w lst h => hnAllE (w, lst) (alGet_mem h)
  have hb : ∀ cid, alGet cid (deleteByDoc d s).2.chunks
      = match alGet cid s.chunks with
        | some ch => if ch.docId = d then none else some ch
        | none => none := by
    intro cid
    have hfold := foldDel_chunks_alGet (docIds d s) s cid hnd
    show alGet cid ((docIds d s).foldl delChunk s).chunks = _
    rw [hfold]
    cases halg : alGet cid s.chunks with
    | none =>
      have hm : cid ∉ docIds d s := by
        intro hmem
        obtain ⟨ch, hch, _⟩ := (mem_docIds_iff hnd).mp hmem
        rw [halg] at hch
        cases hch
      simp [hm, halg]
    | some ch =>
      by_cases hdoc : ch.docId = d
      · have hm : cid ∈ docIds d s := (mem_docIds_iff hnd).mpr ⟨ch, halg, hdoc⟩
        simp [hm, hdoc]
      · have hm : cid ∉ docIds d s := by
          intro hmem
          obtain ⟨ch', hch', hd'⟩ := (mem_docIds_iff hnd).mp hmem
          rw [halg] at hch'
          obtain rfl : ch = ch' := by injection hch'
          exact hdoc hd'
        simp [hm, halg, hdoc]
  refine ⟨by simp [deleteByDoc, docIds], hb, ?_, ?_⟩
  · intro cid hcid w lst hget
    refine foldDel_clears (docIds d s) s (docIds_nodup hnd) hnAll ?_ cid hcid w lst hget
    intro cid' hm
    obtain ⟨ch, hch, _⟩ := (mem_docIds_iff hnd).mp hm
    refine ⟨ch, hch, ?_⟩
    intro w' lst' hget' hc
    have h3 := hpostE (w', lst') (alGet_mem hget') cid' hc
    obtain ⟨ch', hch', hw'⟩ := chunkHasWord_iff.mp h3
    rw [hch] at hch'
    obtain rfl : ch = ch' := by injection hch'
    exact hw'
  · intro q k res hsearch r hr
    have hstored := search_results_stored _ q k res hsearch r hr
    have hbr := hb r.1
    rw [hstored] at hbr
    cases halg : alGet r.1 s.chunks with
    | none =>
      rw [halg] at hbr
      have hbr2 : some r.2.2 = (none : Option Chunk) := hbr
      exact absurd hbr2 (by simp)
    | some ch =>
      rw [halg] at hbr
      have hbr2 : some r.2.2 = if ch.docId = d then none else some ch := hbr
      by_cases hdoc : ch.docId = d
      · rw [if_pos hdoc] at hbr2
        exact absurd hbr2 (by simp)
      · rw [if_neg hdoc] at hbr2
        have hcc : r.2.2 = ch := by injection hbr2
        rw [hcc]
        exact hdoc

/-- Witness for C3 on a concrete two-document store. -/
theorem c3_delete_by_doc_witness :
    StoreInv demoStore
    ∧ ((deleteByDoc "d1".data demoStore).1
        = (demoStore.chunks.filter (fun p => p.2.docId = "d1".data)).length
      ∧ (∀ cid, alGet cid (deleteByDoc "d1".data demoStore).2.chunks
          = match alGet cid demoStore.chunks with
            | some ch => if ch.docId = "d1".data then none else some ch
            | none => none)
      ∧ (∀ cid ∈ docIds "d1".data demoStore, ∀ w lst,
          alGet w (deleteByDoc "d1".data demoStore).2.index = some lst → cid ∉ lst)
      ∧ (∀ q k res, search q k (deleteByDoc "d1".data demoStore).2 = some res →
          ∀ r ∈ res, r.2.2.docId ≠ "d1".data)) :=
  ⟨by decide, c3_delete_by_doc demoStore "d1".data (by decide)⟩

/-! # C5: content-addressed ids and idempotent postings -/

theorem mem_alKeys_of_alGet {β : Type} {k : Str} {v : β} {l : List (Str × β)}
    (h : alGet k l = some v) : k ∈ alKeys l :=
  mem_alKeys_of_mem (alGet_mem h)

theorem indexWord_nodup (cid : Str) (idx : List (Str × List Str)) (w : Str)
    (h : ∀ p ∈ idx, p.2.Nodup) : ∀ p ∈ indexWord cid idx w, p.2.Nodup := by
  intro p hp
  unfold indexWord at hp
  by_cases hc : cid ∈ (alGet w idx).getD []
  · rw [if_pos hc] at hp
    exact h p hp
  · rw [if_neg hc] at hp
    rcases mem_alSet _ _ _ hp with hold | hnew
    · exact h p hold
    · subst hnew
      show ((alGet w idx).getD [] ++ [cid]).Nodup
      have hcur : ((alGet w idx).getD []).Nodup := by
        cases halg : alGet w idx with
        | none => simp
        | some lst => simpa using h (w, lst) (alGet_mem halg)
      simp [List.nodup_append, hcur, hc]

theorem foldIndexWord_nodup (cid : Str) :
    ∀ (ws : List Str) (idx : List (Str × List Str)),
      (∀ p ∈ idx, p.2.Nodup) → ∀ p ∈ ws.foldl (indexWord cid) idx, p.2.Nodup := by
  intro ws
  induction ws with
  | nil => intro idx h; exact h
  | cons w0 ws' ih =>
    intro idx h
    rw [List.foldl_cons]
    exact ih _ (indexWord_nodup cid idx w0 h)

theorem addChunk_postings_nodup (hash : Str → Str) (c d : Str) (s : RAGStore)
    (h : ∀ p ∈ s.index, p.2.Nodup) :
    ∀ p ∈ (addChunk hash c d s).2.index, p.2.Nodup :=
  foldIndexWord_nodup (hash c) (pyDedup (splitWS (lowerStr c))) s.index h

theorem nodup_all_eq_length_le_one (l : List Str) (a : Str)
    (hnd : l.Nodup) (hall : ∀ x ∈ l, x = a) : l.length ≤ 1 := by
  match l with
  | [] => simp
  | [x] => simp
  | x :: y :: rest =>
    exfalso
    have hx := hall x (by simp)
    have hy := hall y (by simp)
    rw [List.nodup_cons] at hnd
    exact hnd.1 (by simp [hx, hy])

/-- C5: the returned chunk id is a function of the content alone (any doc id,
any store), re-adding identical content does not change `chunk_count`, and
after the re-add every postings list still holds the id at most once. -/
theorem c5_add_idempotent (hash : Str → Str) (c d1 d2 : Str) (s s' : RAGStore)
    (hInv : StoreInv s) :
    (addChunk hash c d1 s').1 = (addChunk hash c d2 s).1
    ∧ chunkCount (addChunk hash c d2 (addChunk hash c d1 s).2).2
        = chunkCount (addChunk hash c d1 s).2
    ∧ (∀ w lst,
        alGet w (addChunk hash c d2 (addChunk hash c d1 s).2).2.index = some lst →
          (lst.filter (fun x => x = hash c)).length ≤ 1) := by
  obtain ⟨hnd, hnAllE, -, -⟩ := hInv
  refine ⟨rfl, ?_, ?_⟩
  · show (alSet (hash c) ⟨c, d2⟩ (addChunk hash c d1 s).2.chunks).length
      = (addChunk hash c d1 s).2.chunks.length
    refine length_alSet_mem _ _ _ ?_
    refine mem_alKeys_of_alGet (v := Chunk.mk c d1) ?_
    show alGet (hash c) (alSet (hash c) ⟨c, d1⟩ s.chunks) = some ⟨c, d1⟩
    exact alGet_alSet_self _ _ _
  · intro w lst hget
    have hnd2 : ∀ p ∈ (addChunk hash c d2 (addChunk hash c d1 s).2).2.index, p.2.Nodup :=
      addChunk_postings_nodup hash c d2 _
        (addChunk_postings_nodup hash c d1 s hnAllE)
    have hlstnd : lst.Nodup := hnd2 (w, lst) (alGet_mem hget)
    refine nodup_all_eq_length_le_one _ (hash c) (hlstnd.filter _) ?_
    intro x hx
    exact of_decide_eq_true (List.mem_filter.mp hx).2

/-- Witness for C5 on a concrete store satisfying the invariant. -/
theorem c5_add_idempotent_witness :
    StoreInv demoStore
    ∧ ((addChunk id "alpha beta".data "d9".data emptyStore).1
        = (addChunk id "alpha beta".data "d3".data demoStore).1
      ∧ chunkCount (addChunk id "alpha beta".data "d3".data
          (addChunk id "alpha beta".data "d9".data demoStore).2).2
        = chunkCount (addChunk id "alpha beta".data "d9".data demoStore).2
      ∧ (∀ w lst,
          alGet w (addChunk id "alpha beta".data "d3".data
            (addChunk id "alpha beta".data "d9".data demoStore).2).2.index = some lst →
            (lst.filter (fun x => x = id "alpha beta".data)).length ≤ 1)) :=
  ⟨by decide, c5_add_idempotent id "alpha beta".data "d9".data "d3".data
    demoStore emptyStore (by decide)⟩

/-! # C9: re-adding identical content under a different doc id -/

/-- C9: adding the same content under doc `d2` after doc `d1` silently
reassigns the stored chunk to `d2` (the content hash collides by design):
the stored record's `doc_id` becomes `d2`; `delete_by_doc d1` neither counts
the chunk (it is not among `d1`'s collected ids) nor removes it, while
`delete_by_doc d2` counts and removes it. -/
theorem c9_content_reassign (hash : Str → Str) (c d1 d2 : Str) (s : RAGStore)
    (hnd : (alKeys s.chunks).Nodup) (hne : d1 ≠ d2) :
    alGet (hash c) (addChunk hash c d2 (addChunk hash c d1 s).2).2.chunks
      = some ⟨c, d2⟩
    ∧ (hash c) ∉ docIds d1 (addChunk hash c d2 (addChunk hash c d1 s).2).2
    ∧ alGet (hash c)
        (deleteByDoc d1 (addChunk hash c d2 (addChunk hash c d1 s).2).2).2.chunks
      = some ⟨c, d2⟩
    ∧ (hash c) ∈ docIds d2 (addChunk hash c d2 (addChunk hash c d1 s).2).2
    ∧ alGet (hash c)
        (deleteByDoc d2 (addChunk hash c d2 (addChunk hash c d1 s).2).2).2.chunks
      = none := by
  have hget2 : alGet (hash c)
      (addChunk hash c d2 (addChunk hash c d1 s).2).2.chunks = some ⟨c, d2⟩ := by
    show alGet (hash c)
      (alSet (hash c) ⟨c, d2⟩ (alSet (hash c) ⟨c, d1⟩ s.chunks)) = some ⟨c, d2⟩
    exact alGet_alSet_self _ _ _
  have hnd2 : (alKeys (addChunk hash c d2 (addChunk hash c d1 s).2).2.chunks).Nodup := by
    show (alKeys (alSet (hash c) ⟨c, d2⟩ (alSet (hash c) ⟨c, d1⟩ s.chunks))).Nodup
    exact alKeys_alSet_nodup _ _ _ (alKeys_alSet_nodup _ _ _ hnd)
  have hnotd1 : (hash c) ∉ docIds d1 (addChunk hash c d2 (addChunk hash c d1 s).2).2 := by
    intro hm
    obtain ⟨ch, hch, hdoc⟩ := (mem_docIds_iff hnd2).mp hm
    rw [hget2] at hch
    obtain rfl : Chunk.mk c d2 = ch := by injection hch
    exact hne hdoc.symm
  have hind2 : (hash c) ∈ docIds d2 (addChunk hash c d2 (addChunk hash c d1 s).2).2 :=
    (mem_docIds_iff hnd2).mpr ⟨⟨c, d2⟩, hget2, rfl⟩
  refine ⟨hget2, hnotd1, ?_, hind2, ?_⟩
  · show alGet (hash c)
      ((docIds d1 _).foldl delChunk (addChunk hash c d2 (addChunk hash c d1 s).2).2).chunks
      = some ⟨c, d2⟩
    rw [foldDel_chunks_other _ _ _ hnotd1]
    exact hget2
  · show alGet (hash c)
      ((docIds d2 _).foldl delChunk (addChunk hash c d2 (addChunk hash c d1 s).2).2).chunks
      = none
    rw [foldDel_chunks_alGet _ _ _ hnd2]
    simp [hind2]

/-- Witness for C9 starting from the empty store. -/
theorem c9_content_reassign_witness :
    ((alKeys (emptyStore).chunks).Nodup ∧ "d1".data ≠ "d2".data)
    ∧ (alGet (id "alpha".data)
        (addChunk id "alpha".data "d2".data
          (addChunk id "alpha".data "d1".data emptyStore).2).2.chunks
      = some ⟨"alpha".data, "d2".data⟩
    ∧ (id "alpha".data) ∉ docIds "d1".data
        (addChunk id "alpha".data "d2".data
          (addChunk id "alpha".data "d1".data emptyStore).2).2
    ∧ alGet (id "alpha".data)
        (deleteByDoc "d1".data (addChunk id "alpha".data "d2".data
          (addChunk id "alpha".data "d1".data emptyStore).2).2).2.chunks
      = some ⟨"alpha".data, "d2".data⟩
    ∧ (id "alpha".data) ∈ docIds "d2".data
        (addChunk id "alpha".data "d2".data
          (addChunk id "alpha".data "d1".data emptyStore).2).2
    ∧ alGet (id "alpha".data)
        (deleteByDoc "d2".data (addChunk id "alpha".data "d2".data
          (addChunk id "alpha".data "d1".data emptyStore).2).2).2.chunks
      = none) :=
  ⟨⟨by decide, by decide⟩,
    c9_content_reassign id "alpha".data "d1".data "d2".data emptyStore
      (by decide) (by decide)⟩

/-! # C4: search scoring, ordering and truncation -/

theorem foldBump_alGet :
    ∀ (lst : List Str), lst.Nodup →
      ∀ (cs : List (Str × Nat)) (cid : Str),
        alGet cid (lst.foldl bumpScore cs)
          = if cid ∈ lst then some ((alGet cid cs).getD 0 + 1) else alGet cid cs := by
  intro lst
  induction lst with
  | nil => intro _ cs cid; simp
  | cons x rest ih =>
    intro hnd cs cid
    rw [List.foldl_cons]
    rw [ih (List.nodup_cons.mp hnd).2]
    by_cases hx : cid = x
    · subst hx
      have hnotin : cid ∉ rest := (List.nodup_cons.mp hnd).1
      simp only [if_neg hnotin, List.mem_cons, true_or, if_pos rfl]
      show alGet cid (alSet cid ((alGet cid cs).getD 0 + 1) cs) = _
      rw [alGet_alSet_self]
      simp
    · have : alGet cid (bumpScore cs x) = alGet cid cs :=
        alGet_alSet_ne _ _ _ _ (fun hh => hx hh.symm)
      by_cases hr : cid ∈ rest
      · simp [hr, hx, this]
      · simp [hr, hx, this]

theorem foldBump_keys_nodup :
    ∀ (lst : List Str) (cs : List (Str × Nat)), (alKeys cs).Nodup →
      (alKeys (lst.foldl bumpScore cs)).Nodup := by
  intro lst
  induction lst with
  | nil => intro cs h; exact h
  | cons x rest ih =>
    intro cs h
    rw [List.foldl_cons]
    exact ih _ (alKeys_alSet_nodup _ _ _ h)

theorem tallyWord_alGet (s : RAGStore)
    (hnAll : ∀ w lst, alGet w s.index = some lst → lst.Nodup)
    (cs : List (Str × Nat)) (w0 cid : Str) :
    alGet cid (tallyWord s cs w0)
      = if cid ∈ (alGet w0 s.index).getD [] then some ((alGet cid cs).getD 0 + 1)
        else alGet cid cs := by
  unfold tallyWord
  cases halg : alGet w0 s.index with
  | none => simp
  | some lst =>
    simp only [Option.getD_some]
    exact foldBump_alGet lst (hnAll w0 lst halg) cs cid

theorem tallyWord_keys_nodup (s : RAGStore) (cs : List (Str × Nat)) (w0 : Str)
    (h : (alKeys cs).Nodup) : (alKeys (tallyWord s cs w0)).Nodup :=
  foldBump_keys_nodup _ cs h

theorem foldTally_alGet (s : RAGStore)
    (hnAll : ∀ w lst, alGet w s.index = some lst → lst.Nodup) :
    ∀ (ws : List Str) (cs : List (Str × Nat)) (cid : Str),
      alGet cid (ws.foldl (tallyWord s) cs)
        = if hits s ws cid = 0 then alGet cid cs
          else some ((alGet cid cs).getD 0 + hits s ws cid) := by
  intro ws
  induction ws with
  | nil => intro cs cid; simp [hits]
  | cons w0 ws' ih =>
    intro cs cid
    rw [List.foldl_cons, ih]
    by_cases hmem : cid ∈ (alGet w0 s.index).getD []
    · have hh : hits s (w0 :: ws') cid = hits s ws' cid + 1 := by
        unfold hits
        rw [List.filter_cons]
        simp [hmem]
      have htw : alGet cid (tallyWord s cs w0) = some ((alGet cid cs).getD 0 + 1) := by
        rw [tallyWord_alGet s hnAll cs w0 cid, if_pos hmem]
      rw [hh, htw]
      by_cases h0 : hits s ws' cid = 0
      · simp [h0]
      · simp only [h0, if_neg h0, if_neg (by omega : ¬ hits s ws' cid + 1 = 0)]
        rw [show (some ((alGet cid cs).getD 0 + 1)).getD 0
            = (alGet cid cs).getD 0 + 1 from rfl]
        refine congrArg some ?_
        omega
    · have hh : hits s (w0 :: ws') cid = hits s ws' cid := by
        unfold hits
        rw [List.filter_cons]
        simp [hmem]
      have htw : alGet cid (tallyWord s cs w0) = alGet cid cs := by
        rw [tallyWord_alGet s hnAll cs w0 cid, if_neg hmem]
      rw [hh, htw]

theorem foldTally_keys_nodup (s : RAGStore) :
    ∀ (ws : List Str) (cs : List (Str × Nat)), (alKeys cs).Nodup →
      (alKeys (ws.foldl (tallyWord s) cs)).Nodup := by
  intro ws
  induction ws with
  | nil => intro cs h; exact h
  | cons w0 ws' ih =>
    intro cs h
    rw [List.foldl_cons]
    exact ih _ (tallyWord_keys_nodup s cs w0 h)

theorem mem_raw_hits (s : RAGStore)
    (hnAll : ∀ w lst, alGet w s.index = some lst → lst.Nodup)
    (qws : List Str) (p : Str × Nat)
    (hp : p ∈ qws.foldl (tallyWord s) ([] : List (Str × Nat))) :
    p.2 = hits s qws p.1 ∧ hits s qws p.1 ≠ 0 := by
  have hnd : (alKeys (qws.foldl (tallyWord s) ([] : List (Str × Nat)))).Nodup :=
    foldTally_keys_nodup s qws [] (by simp [alKeys])
  have hget : alGet p.1 (qws.foldl (tallyWord s) ([] : List (Str × Nat))) = some p.2 :=
    alGet_of_mem_nodup hnd hp
  rw [foldTally_alGet s hnAll qws [] p.1] at hget
  by_cases h0 : hits s qws p.1 = 0
  · rw [if_pos h0] at hget
    simp [alGet] at hget
  · rw [if_neg h0] at hget
    refine ⟨?_, h0⟩
    have : (alGet p.1 ([] : List (Str × Nat))).getD 0 + hits s qws p.1 = p.2 := by
      injection hget
    simpa [alGet] using this.symm

theorem hits_pos_chunk (s : RAGStore)
    (hpostE : ∀ p ∈ s.index, ∀ cid ∈ p.2, chunkHasWord s p.1 cid = true)
    (qws : List Str) (cid : Str) (h : hits s qws cid ≠ 0) :
    ∃ ch, alGet cid s.chunks = some ch := by
  unfold hits at h
  have hne : (qws.filter (fun w => cid ∈ (alGet w s.index).getD [])) ≠ [] := by
    intro hnil; rw [hnil] at h; simp at h
  obtain ⟨w, hw⟩ := List.exists_mem_of_ne_nil _ hne
  have hmem := List.mem_filter.mp hw
  have hcid : cid ∈ (alGet w s.index).getD [] := of_decide_eq_true hmem.2
  cases halg : alGet w s.index with
  | none => rw [halg] at hcid; simp at hcid
  | some lst =>
    rw [halg] at hcid
    simp only [Option.getD_some] at hcid
    obtain ⟨ch, hch, -⟩ := chunkHasWord_iff.mp (hpostE (w, lst) (alGet_mem halg) cid hcid)
    exact ⟨ch, hch⟩

theorem hits_eq_content (s : RAGStore)
    (hpostE : ∀ p ∈ s.index, ∀ cid ∈ p.2, chunkHasWord s p.1 cid = true)
    (hcompl : ∀ p ∈ s.chunks, ∀ w ∈ splitWS (lowerStr p.2.content),
      p.1 ∈ (alGet w s.index).getD [])
    (qws : List Str) (cid : Str) (ch : Chunk) (hch : alGet cid s.chunks = some ch) :
    hits s qws cid
      = (qws.filter (fun w => w ∈ splitWS (lowerStr ch.content))).length := by
  unfold hits
  congr 1
  apply List.filter_congr
  intro w hw
  rw [decide_eq_decide]
  constructor
  · intro hcid
    cases halg : alGet w s.index with
    | none => rw [halg] at hcid; simp at hcid
    | some lst =>
      rw [halg] at hcid
      simp only [Option.getD_some] at hcid
      obtain ⟨ch', hch', hwch⟩ :=
        chunkHasWord_iff.mp (hpostE (w, lst) (alGet_mem halg) cid hcid)
      rw [hch] at hch'
      obtain rfl : ch = ch' := by injection hch'
      exact hwch
  · intro hwch
    exact hcompl (cid, ch) (alGet_mem hch) w hwch

theorem insertDescBy_perm {α : Type} (f : α → Score) (x : α) :
    ∀ l : List α, (insertDescBy f x l).Perm (x :: l) := by
  intro l
  induction l with
  | nil => simp [insertDescBy]
  | cons y ys ih =>
    unfold insertDescBy
    by_cases hc : (f x).1 * (f y).2 < (f y).1 * (f x).2
    · rw [if_pos hc]
      exact (ih.cons y).trans (List.Perm.swap x y ys)
    · rw [if_neg hc]

theorem sortDescBy_perm {α : Type} (f : α → Score) :
    ∀ l : List α, (sortDescBy f l).Perm l := by
  intro l
  induction l with
  | nil => simp [sortDescBy]
  | cons x xs ih =>
    unfold sortDescBy
    exact (insertDescBy_perm f x (sortDescBy f xs)).trans (ih.cons x)

theorem insertDescBy_pairwise {α : Type} (f : α → Score) (x : α) :
    ∀ l : List α, (∀ a ∈ l, 0 < (f a).2) →
      List.Pairwise (descR f) l → List.Pairwise (descR f) (insertDescBy f x l) := by
  intro l
  induction l with
  | nil => intro _ _; simp [insertDescBy, List.Pairwise]
  | cons y ys ih =>
    intro hpos hp
    obtain ⟨hy, hys⟩ := List.pairwise_cons.mp hp
    unfold insertDescBy
    by_cases hc : (f x).1 * (f y).2 < (f y).1 * (f x).2
    · rw [if_pos hc]
      refine List.pairwise_cons.mpr ⟨?_, ih (fun a ha => hpos a (by simp [ha])) hys⟩
      intro b hb
      have hb' : b = x ∨ b ∈ ys := by
        have := (insertDescBy_perm f x ys).mem_iff.mp hb
        simpa using this
      rcases hb' with rfl | hb'
      · exact Nat.le_of_lt hc
      · exact hy b hb'
    · rw [if_neg hc]
      refine List.pairwise_cons.mpr ⟨?_, hp⟩
      intro b hb
      rcases List.mem_cons.mp hb with rfl | hb'
      · exact Nat.le_of_not_lt hc
      · have h1 : (f b).1 * (f y).2 ≤ (f y).1 * (f b).2 := hy b hb'
        have h2 : (f y).1 * (f x).2 ≤ (f x).1 * (f y).2 := Nat.le_of_not_lt hc
        have hposy : 0 < (f y).2 := hpos y (by simp)
        show (f b).1 * (f x).2 ≤ (f x).1 * (f b).2
        have hchain : (f b).1 * (f x).2 * (f y).2 ≤ (f x).1 * (f b).2 * (f y).2 := by
          calc (f b).1 * (f x).2 * (f y).2
              = (f b).1 * (f y).2 * (f x).2 := by ring
            _ ≤ (f y).1 * (f b).2 * (f x).2 := Nat.mul_le_mul_right _ h1
            _ = (f y).1 * (f x).2 * (f b).2 := by ring
            _ ≤ (f x).1 * (f y).2 * (f b).2 := Nat.mul_le_mul_right _ h2
            _ = (f x).1 * (f b).2 * (f y).2 := by ring
        exact Nat.le_of_mul_le_mul_right hchain hposy

theorem sortDescBy_pairwise {α : Type} (f : α → Score) :
    ∀ l : List α, (∀ a ∈ l, 0 < (f a).2) →
      List.Pairwise (descR f) (sortDescBy f l) := by
  intro l
  induction l with
  | nil => intro _; simp [sortDescBy, List.Pairwise]
  | cons x xs ih =>
    intro hpos
    unfold sortDescBy
    refine insertDescBy_pairwise f x (sortDescBy f xs) ?_
      (ih (fun a ha => hpos a (by simp [ha])))
    intro a ha
    exact hpos a (by simp [(sortDescBy_perm f xs).mem_iff.mp ha])

theorem descR_scoreVal {p q : Score} (hp : 0 < p.2) (hq : 0 < q.2)
    (h : q.1 * p.2 ≤ p.1 * q.2) : scoreVal q ≤ scoreVal p := by
  unfold scoreVal
  rw [div_le_div_iff₀ (by exact_mod_cast hq) (by exact_mod_cast hp)]
  exact_mod_cast h

theorem search_eq_of_ne (s : RAGStore) (q : Str) (k : Nat)
    (hqne : pyDedup (splitWS (lowerStr q)) ≠ []) :
    search q k s = resolve s ((sortDescBy (fun p => p.2)
      (((pyDedup (splitWS (lowerStr q))).foldl (tallyWord s) ([] : List (Str × Nat))).map
        (fun p => (p.1, (p.2, (pyDedup (splitWS (lowerStr q))).length))))).take k) := by
  have hB : (pyDedup (splitWS (lowerStr q))).isEmpty = false := by
    simpa using hqne
  unfold search
  simp only [hB, Bool.false_eq_true, if_false]

/-- C4: under the store invariant, for a query with at least one word,
`search` succeeds; at most `top_k` results are returned, sorted by
non-increasing score; every result is a stored chunk with positive score equal
to the number of distinct lowercased query words present in its lowercased
content divided by the number of distinct lowercased query words. -/
theorem c4_search_correct (s : RAGStore) (q : Str) (k : Nat) (hInv : StoreInv s)
    (hq : splitWS (lowerStr q) ≠ []) :
    ∃ res, search q k s = some res
      ∧ res.length ≤ k
      ∧ List.Pairwise (fun a b => scoreVal b.2.1 ≤ scoreVal a.2.1) res
      ∧ ∀ r ∈ res, alGet r.1 s.chunks = some r.2.2
        ∧ 0 < scoreVal r.2.1
        ∧ scoreVal r.2.1
          = (((pyDedup (splitWS (lowerStr q))).filter
              (fun w => w ∈ splitWS (lowerStr r.2.2.content))).length : ℚ)
            / ((pyDedup (splitWS (lowerStr q))).length : ℚ) := by
  obtain ⟨hnd, hnAllE, hpostE, hcompl⟩ := hInv
  have hnAll : ∀ w lst, alGet w s.index = some lst → lst.Nodup :=
    fun w lst h => hnAllE (w, lst) (alGet_mem h)
  have hqne : pyDedup (splitWS (lowerStr q)) ≠ [] := by
    obtain ⟨w, hw⟩ := List.exists_mem_of_ne_nil _ hq
    intro h0
    have hmem := (mem_pyDedup w _).mpr hw
    rw [h0] at hmem
    simp at hmem
  have hnq : 0 < (pyDedup (splitWS (lowerStr q))).length := List.length_pos.mpr hqne
  set qws := pyDedup (splitWS (lowerStr q)) with hqws
  set raw := qws.foldl (tallyWord s) ([] : List (Str × Nat)) with hraw
  set scores : List (Str × Score) := raw.map (fun p => (p.1, (p.2, qws.length)))
    with hscores
  set sorted := sortDescBy (fun p : Str × Score => p.2) scores with hsorted
  have hmemScores : ∀ p ∈ scores,
      p.2 = (hits s qws p.1, qws.length) ∧ hits s qws p.1 ≠ 0 := by
    intro p hp
    rw [hscores] at hp
    obtain ⟨p0, hp0, hpeq⟩ := List.mem_map.mp hp
    obtain ⟨h1, h2⟩ := mem_raw_hits s hnAll qws p0 hp0
    rw [← hpeq]
    exact ⟨by simp [h1], by simpa using h2⟩
  have hmemTake : ∀ p ∈ sorted.take k, p ∈ scores := by
    intro p hp
    exact (sortDescBy_perm (fun p : Str × Score => p.2) scores).mem_iff.mp
      (List.mem_of_mem_take hp)
  obtain ⟨res, hres⟩ := resolve_total s (sorted.take k) (by
    intro p hp
    exact hits_pos_chunk s hpostE qws p.1 (hmemScores p (hmemTake p hp)).2)
  obtain ⟨hmap, hmem⟩ := resolve_some s (sorted.take k) res hres
  have hsearch : search q k s = some res := by
    rw [search_eq_of_ne s q k hqne]
    exact hres
  refine ⟨res, hsearch, ?_, ?_, ?_⟩
  · have hlen : res.length = (sorted.take k).length := by
      rw [← hmap, List.length_map]
    rw [hlen]
    exact List.length_take_le k sorted
  · have hpos : ∀ a ∈ scores, 0 < ((fun p : Str × Score => p.2) a).2 := by
      intro a ha
      show 0 < a.2.2
      rw [(hmemScores a ha).1]
      exact hnq
    have htakePW : List.Pairwise (descR (fun p : Str × Score => p.2)) (sorted.take k) :=
      (sortDescBy_pairwise (fun p : Str × Score => p.2) scores hpos).sublist
        (List.take_sublist k sorted)
    have hmapPW : List.Pairwise (descR (fun p : Str × Score => p.2))
        (res.map (fun r => (r.1, r.2.1))) := by
      rw [hmap]; exact htakePW
    have hpw := List.pairwise_map.mp hmapPW
    refine hpw.imp_of_mem ?_
    intro a b ha hb hR
    have hpa : (a.1, a.2.1) ∈ sorted.take k := by
      rw [← hmap]; exact List.mem_map_of_mem _ ha
    have hpb : (b.1, b.2.1) ∈ sorted.take k := by
      rw [← hmap]; exact List.mem_map_of_mem _ hb
    refine descR_scoreVal ?_ ?_ hR
    · rw [show a.2.1 = (hits s qws a.1, qws.length) from
        (hmemScores _ (hmemTake _ hpa)).1]
      exact hnq
    · rw [show b.2.1 = (hits s qws b.1, qws.length) from
        (hmemScores _ (hmemTake _ hpb)).1]
      exact hnq
  · intro r hr
    have hchg := hmem r hr
    have hpr : (r.1, r.2.1) ∈ sorted.take k := by
      rw [← hmap]; exact List.mem_map_of_mem _ hr
    obtain ⟨hsc, hneq⟩ := hmemScores _ (hmemTake _ hpr)
    have hscn : r.2.1 = (hits s qws r.1, qws.length) := hsc
    refine ⟨hchg, ?_, ?_⟩
    · rw [hscn]
      unfold scoreVal
      apply div_pos
      · exact_mod_cast Nat.pos_of_ne_zero hneq
      · exact_mod_cast hnq
    · rw [hscn]
      unfold scoreVal
      rw [hits_eq_content s hpostE hcompl qws r.1 r.2.2 hchg]

/-- Witness for C4 at a concrete store and query. -/
theorem c4_search_correct_witness :
    (StoreInv demoStore ∧ splitWS (lowerStr "alpha BETA".data) ≠ [])
    ∧ (∃ res, search "alpha BETA".data 2 demoStore = some res
      ∧ res.length ≤ 2
      ∧ List.Pairwise (fun a b => scoreVal b.2.1 ≤ scoreVal a.2.1) res
      ∧ ∀ r ∈ res, alGet r.1 demoStore.chunks = some r.2.2
        ∧ 0 < scoreVal r.2.1
        ∧ scoreVal r.2.1
          = (((pyDedup (splitWS (lowerStr "alpha BETA".data))).filter
              (fun w => w ∈ splitWS (lowerStr r.2.2.content))).length : ℚ)
            / ((pyDedup (splitWS (lowerStr "alpha BETA".data))).length : ℚ)) :=
  ⟨⟨by decide, by decide⟩,
    c4_search_correct demoStore "alpha BETA".data 2 (by decide) (by decide)⟩

/-! # C8: the grounding context and its sources -/

/-- C8 counterexample: Python's `list(set(...))` enumerates in an unspecified,
hash-dependent order.  With the admissible enumeration `revSetOrder`, `query`
on two chunks from sources `s1`, `s2` (both matching the question, `s1`
encountered first) returns the sources as `[s2, s1]`, not in first-encountered
order `[s1, s2]` — so the order is not guaranteed by the code. -/
theorem c8_counterexample :
    pySetValid revSetOrder
    ∧ (queryGrounding revSetOrder "alpha".data 2 demoEChunks).map (fun p => p.2)
        = some ["s2".data, "s1".data]
    ∧ pyDedup ((retrieveRelevant "alpha".data 2 demoEChunks).map (fun c => c.source))
        = ["s1".data, "s2".data]
    ∧ (["s2".data, "s1".data] : List Str) ≠ ["s1".data, "s2".data] :=
  ⟨fun xs => List.reverse_perm (pyDedup xs), by decide, by decide, by decide⟩

/-- C8 amended: whenever at least one chunk scores above zero (the retrieved
list is non-empty), `query` grounds on the context assembled as
`"[Source: {source}]\n{content}"` per retrieved chunk joined with blank lines,
and returns the contributing sources deduplicated — equal as a set to the
distinct sources of the retrieved chunks, without duplicates, but in an
unspecified enumeration order rather than first-encountered order. -/
theorem c8_query_grounding (f : List Str → List Str) (hf : pySetValid f)
    (question : Str) (topk : Nat) (chunks : List EChunk)
    (hrel : retrieveRelevant question topk chunks ≠ []) :
    queryGrounding f question topk chunks
      = some (joinWith ['\n', '\n'] ((retrieveRelevant question topk chunks).map fmtChunk),
          f ((retrieveRelevant question topk chunks).map (fun c => c.source)))
    ∧ (f ((retrieveRelevant question topk chunks).map (fun c => c.source))).Perm
        (pyDedup ((retrieveRelevant question topk chunks).map (fun c => c.source)))
    ∧ (f ((retrieveRelevant question topk chunks).map (fun c => c.source))).Nodup := by
  refine ⟨?_, hf _, ?_⟩
  · have hB : (retrieveRelevant question topk chunks).isEmpty = false := by
      simpa using hrel
    unfold queryGrounding
    simp only [hB, Bool.false_eq_true, if_false]
  · exact (hf _).nodup_iff.mpr (pyDedup_nodup _)

/-- Witness for C8 amended, with `pyDedup` itself as the set enumeration. -/
theorem c8_query_grounding_witness :
    (pySetValid pyDedup ∧ retrieveRelevant "alpha".data 2 demoEChunks ≠ [])
    ∧ (queryGrounding pyDedup "alpha".data 2 demoEChunks
      = some (joinWith ['\n', '\n']
            ((retrieveRelevant "alpha".data 2 demoEChunks).map fmtChunk),
          pyDedup ((retrieveRelevant "alpha".data 2 demoEChunks).map (fun c => c.source)))
    ∧ (pyDedup ((retrieveRelevant "alpha".data 2 demoEChunks).map (fun c => c.source))).Perm
        (pyDedup ((retrieveRelevant "alpha".data 2 demoEChunks).map (fun c => c.source)))
    ∧ (pyDedup ((retrieveRelevant "alpha".data 2 demoEChunks).map
        (fun c => c.source))).Nodup) :=
  ⟨⟨fun xs => List.Perm.refl (pyDedup xs), by decide⟩,
    c8_query_grounding pyDedup (fun xs => List.Perm.refl (pyDedup xs))
      "alpha".data 2 demoEChunks (by decide)⟩
